/-
Verification of the BSV 1Sat Ordinals marketplace core (listing lifecycle,
fee model, funding selector, settlement transaction assembler) against its
natural-language specification.

The Rust sources are shallowly embedded:
* `u64` values are `Nat`; every `u64` addition of the source that could wrap
  is written with `wadd` (addition modulo `2 ^ 64`, the release-mode Rust
  semantics); `u64::saturating_sub` is truncated `Nat` subtraction, which
  coincides with it exactly.
* `f64` values are embedded as the exact rational they denote; `roundF64`
  is IEEE-754 round-to-nearest, ties-to-even, at 53 bits of precision
  (binary64); each `f64` operation of the source is the exact rational
  operation followed by `roundF64`, which is the IEEE semantics.  The
  values arising here are far from the subnormal/overflow range, where
  this model is exact.
* timestamps (`chrono::DateTime<Utc>`) are `Nat` instants supplied as
  explicit parameters; generated UUIDs are likewise explicit parameters.
* `sled` trees are association lists; the key spaces
  `listing:`/`listing_by_origin:`/`listing_by_seller:` of the source are
  the three separate fields of `Store`.
* base58 address / hex txid parsing is out of scope of the claims treated
  here: strings are carried through opaquely, and the parse-success path of
  the source is modelled (parse failures abort before any interesting
  computation).
-/
import Mathlib

namespace Marketplace

/-! ## Machine-integer model -/

/-- `2 ^ 64`, the modulus of Rust `u64` arithmetic. -/
def u64Mod : Nat := 2 ^ 64

/-- Rust release-mode `u64` addition (wraps on overflow). -/
def wadd (a b : Nat) : Nat := (a + b) % u64Mod

/-! ## IEEE-754 binary64 model

`lgAux`/`lg` compute the floor base-2 logarithm of a positive natural by
structural recursion on a fuel argument (so that the kernel can evaluate
them).  `qexp x` is the binade exponent of a positive rational, i.e. the
unique `e` with `2 ^ e ≤ x < 2 ^ (e + 1)`.  `roundF64 x` rounds a
nonnegative rational to the binary64 grid: the significand is scaled to
`[2 ^ 52, 2 ^ 53)` and rounded to the nearest integer, ties to even. -/

/-- Floor base-2 logarithm, fuel-driven so that it is structurally
recursive (kernel-reducible). -/
def lgAux : Nat → Nat → Nat
  | 0, _ => 0
  | fuel + 1, n => if n ≤ 1 then 0 else lgAux fuel (n / 2) + 1

/-- Floor base-2 logarithm of a positive natural (`lg 0 = 0`). -/
def lg (n : Nat) : Nat := lgAux n n

/-- Binade exponent of a positive rational: the unique `e` with
`2 ^ e ≤ x < 2 ^ (e + 1)`. -/
def qexp (x : ℚ) : ℤ :=
  if 1 ≤ x then (lg ⌊x⌋.toNat : ℤ)
  else
    let j : ℤ := lg ⌊x⁻¹⌋.toNat
    if (2 : ℚ) ^ (-j) ≤ x then -j else -j - 1

/-- Round a nonnegative rational to the nearest IEEE-754 binary64 value
(ties to even).  Arguments outside `(0, ∞)` are sent to `0`; the
subnormal/overflow ranges are never reached by the program fragments
embedded here. -/
def roundF64 (x : ℚ) : ℚ :=
  if x ≤ 0 then 0
  else
    let e : ℤ := qexp x
    let scaled : ℚ := x * 2 ^ ((52 : ℤ) - e)
    let m0 : ℤ := ⌊scaled⌋
    let fr : ℚ := scaled - (m0 : ℚ)
    let m : ℤ :=
      if fr < 1 / 2 then m0
      else if 1 / 2 < fr then m0 + 1
      else if m0 % 2 = 0 then m0 else m0 + 1
    (m : ℚ) * 2 ^ (e - (52 : ℤ))

/-- Rust `n as f64` on a `u64` (round to nearest even). -/
def castF64 (n : Nat) : ℚ := roundF64 (n : ℚ)

/-- IEEE binary64 multiplication: exact product, then rounding. -/
def mulF64 (a b : ℚ) : ℚ := roundF64 (a * b)

/-- IEEE binary64 division: exact quotient, then rounding. -/
def divF64 (a b : ℚ) : ℚ := roundF64 (a / b)

/-- Rust `f64::ceil`.  The ceiling of a binary64 value is exactly
representable, so no re-rounding occurs. -/
def ceilF64 (x : ℚ) : ℚ := (⌈x⌉ : ℚ)

/-- Rust `x as u64` on an `f64`: truncate toward zero, saturating at the
bounds of `u64`. -/
def f64toU64 (x : ℚ) : Nat := min ⌊x⌋.toNat (u64Mod - 1)

/-! ## Data model (src/models/mod.rs) -/

/-- `ListingStatus` (src/models/mod.rs). -/
inductive ListingStatus where
  | active
  | sold
  | cancelled
deriving DecidableEq

/-- `ListingFees` (src/models/mod.rs): fee breakdown of a listing.
`tip_percent` is an `f64` in the source, embedded as the exact rational
value of that double. -/
structure ListingFees where
  seller_receives : Nat
  marketplace_fee : Nat
  tip_amount : Nat
  tip_percent : ℚ
  total_price : Nat
deriving DecidableEq

/-- `ListingFees::calculate` (src/models/mod.rs lines 161-181).  The Rust
literal `0.01` denotes the binary64 value nearest `1/100`, hence
`roundF64 (1/100)`; `tip_percent / 100.0` is an `f64` division; both
products are `f64` multiplications; `.ceil() as u64` is `f64toU64 ∘
ceilF64`; the final sum is `u64` addition. -/
def ListingFees.calculate (seller_wants : Nat) (tip_percent : ℚ) : ListingFees :=
  let marketplace_fee :=
    f64toU64 (ceilF64 (mulF64 (castF64 seller_wants) (roundF64 (1 / 100))))
  let tip_amount :=
    f64toU64 (ceilF64 (mulF64 (castF64 seller_wants) (divF64 tip_percent 100)))
  let seller_receives := seller_wants
  let total_price := wadd (wadd seller_receives marketplace_fee) tip_amount
  { seller_receives := seller_receives
    marketplace_fee := marketplace_fee
    tip_amount := tip_amount
    tip_percent := tip_percent
    total_price := total_price }

/-- `OrdinalUtxoRef` (src/models/mod.rs): reference to the asset-holding
output of a listing. -/
structure OrdinalUtxoRef where
  txid : String
  vout : Nat
  satoshis : Nat
  script : String
deriving DecidableEq

/-- `Listing` (src/models/mod.rs).  Timestamps are `Nat` instants. -/
structure Listing where
  id : String
  origin : String
  seller_address : String
  seller_ord_address : String
  fees : ListingFees
  status : ListingStatus
  psbt_hex : Option String
  listing_utxo : Option String
  ordinal_utxo : OrdinalUtxoRef
  created_at : Nat
  updated_at : Nat
  sold_at : Option Nat
  buyer_address : Option String
  purchase_txid : Option String
deriving DecidableEq

/-- `CreateListingRequest` (src/models/mod.rs). -/
structure CreateListingRequest where
  origin : String
  ordinal_utxo : OrdinalUtxoRef
  seller_wants_satoshis : Nat
  tip_percent : ℚ
  seller_address : String
  seller_ord_address : String
deriving DecidableEq

/-- Modelled from the usage sites in src (its declaration is absent from
src/models/mod.rs, but every field is pinned by src/api/handlers.rs line
432 and src/services/tx_builder.rs): a candidate buyer funding output. -/
structure BuyerUtxo where
  txid : String
  vout : Nat
  satoshis : Nat
  script_hex : String
deriving DecidableEq

/-- Modelled from the usage site in src/services/tx_builder.rs lines 89-95
(its declaration is absent from src/models/mod.rs): one per-input
signature request. -/
structure SigRequest where
  input_index : Nat
  prev_txid : String
  prev_vout : Nat
  satoshis : Nat
  script_hex : String
deriving DecidableEq

/-- The UTXO record returned by the external indexer
(`OrdinalUtxo`, src/models/mod.rs lines 5-16); only the four fields read
by the funding selector are carried. -/
structure GpUtxo where
  txid : String
  vout : Nat
  satoshis : Nat
  lock : String
deriving DecidableEq

/-! ## Transaction assembler (src/services/tx_builder.rs)

A transaction input carries its outpoint and input script; `Sequence::MAX`
and the empty witness are constants and are omitted.  `ScriptBuf::new()`
is the empty script, written `""`.  An output's `script_pubkey` is
identified with the address string it was derived from (address decoding
is injective and out of scope). -/

structure TxIn where
  prev_txid : String
  prev_vout : Nat
  script_sig : String
deriving DecidableEq

structure TxOut where
  value : Nat
  script_pubkey : String
deriving DecidableEq

/-- The assembler's result: the unsigned transaction (its serialized hex
form in the source stands for exactly these inputs and outputs) plus the
signature requests. -/
structure PrepareResult where
  inputs : List TxIn
  outputs : List TxOut
  sig_requests : List SigRequest
deriving DecidableEq

/-- `build_purchase_tx` (src/services/tx_builder.rs lines 11-105) on the
parse-success path.  `total_input_sats` starts at `1` (the ordinal input)
and accumulates the buyer inputs with `u64` addition; the change uses
`u64::saturating_sub`, which is `Nat` subtraction. -/
def build_purchase_tx (listing : Listing) (buyer_ord_address : String)
    (buyer_payment_address : String) (buyer_utxos : List BuyerUtxo)
    (marketplace_fee_address : String) : PrepareResult :=
  let inputs : List TxIn :=
    { prev_txid := listing.ordinal_utxo.txid
      prev_vout := listing.ordinal_utxo.vout
      script_sig := "" } ::
    buyer_utxos.map (fun u =>
      { prev_txid := u.txid, prev_vout := u.vout, script_sig := "" })
  let total_input_sats : Nat :=
    buyer_utxos.foldl (fun acc u => wadd acc u.satoshis) 1
  let total_marketplace_sats : Nat :=
    wadd listing.fees.marketplace_fee listing.fees.tip_amount
  let total_fixed_outputs : Nat :=
    wadd (wadd 1 listing.fees.seller_receives) total_marketplace_sats
  let estimated_fee : Nat := 300
  let change : Nat := total_input_sats - wadd total_fixed_outputs estimated_fee
  let outputs : List TxOut :=
    [{ value := 1, script_pubkey := buyer_ord_address },
     { value := listing.fees.seller_receives,
       script_pubkey := listing.seller_address }] ++
    (if 0 < total_marketplace_sats then
       [{ value := total_marketplace_sats,
          script_pubkey := marketplace_fee_address }]
     else []) ++
    (if 546 ≤ change then
       [{ value := change, script_pubkey := buyer_payment_address }]
     else [])
  let sig_requests : List SigRequest :=
    buyer_utxos.enum.map (fun p =>
      { input_index := p.1 + 1
        prev_txid := p.2.txid
        prev_vout := p.2.vout
        satoshis := p.2.satoshis
        script_hex := p.2.script_hex })
  { inputs := inputs, outputs := outputs, sig_requests := sig_requests }

/-! ## Funding selector (src/api/handlers.rs lines 410-454) -/

/-- The selection loop of `prepare_purchase`: iterate candidates in order,
skip outputs below 546 satoshis, accumulate the rest, and return as soon
as the accumulated value reaches `required`.  Returns the selected
outputs (in selection order) and the final accumulated value. -/
def select_funding (utxos : List GpUtxo) (required collected : Nat) :
    List BuyerUtxo × Nat :=
  match utxos with
  | [] => ([], collected)
  | u :: rest =>
    if 546 ≤ u.satoshis then
      let c := wadd collected u.satoshis
      let b : BuyerUtxo :=
        { txid := u.txid, vout := u.vout, satoshis := u.satoshis
          script_hex := u.lock }
      if required ≤ c then ([b], c)
      else
        let r := select_funding rest required c
        (b :: r.1, r.2)
    else select_funding rest required collected

/-- The selection phase of `prepare_purchase`: the required amount is
`total_price + 1000` (the miner-fee buffer), and exhausting the
candidates below it fails with the insufficient-funds error carrying the
required and collected amounts. -/
def prepare_purchase_selection (utxos : List GpUtxo) (total_price : Nat) :
    Except (Nat × Nat) (List BuyerUtxo × Nat) :=
  let required := wadd total_price 1000
  let r := select_funding utxos required 0
  if r.2 < required then .error (required, r.2) else .ok r

/-! ## Listing store (src/services/listings_db.rs) and the handler-level
operations that mutate it (src/api/handlers.rs)

The three sled key spaces (`listing:`, `listing_by_origin:`,
`listing_by_seller:`) are the three association-list fields.  UUIDs and
wall-clock instants are explicit parameters. -/

structure Store where
  listings : List (String × Listing)
  origin_index : List (String × String)
  seller_index : List ((String × String) × String)
deriving DecidableEq

def Store.empty : Store := { listings := [], origin_index := [], seller_index := [] }

/-- sled `insert`: overwrite the value at a key. -/
def upsertL (k : String) (v : Listing) (m : List (String × Listing)) :
    List (String × Listing) :=
  (k, v) :: m.filter (fun p => ¬ p.1 = k)

def upsertS (k v : String) (m : List (String × String)) :
    List (String × String) :=
  (k, v) :: m.filter (fun p => ¬ p.1 = k)

/-- sled `remove`. -/
def removeS (k : String) (m : List (String × String)) :
    List (String × String) :=
  m.filter (fun p => ¬ p.1 = k)

/-- `ListingsDb::get_listing`. -/
def get_listing (s : Store) (id : String) : Option Listing :=
  (s.listings.find? (fun p => p.1 = id)).map Prod.snd

/-- `ListingsDb::get_listing_by_origin`. -/
def get_listing_by_origin (s : Store) (origin : String) : Option Listing :=
  match (s.origin_index.find? (fun p => p.1 = origin)).map Prod.snd with
  | some id => get_listing s id
  | none => none

/-- `ListingsDb::is_origin_listed`. -/
def is_origin_listed (s : Store) (origin : String) : Bool :=
  (get_listing_by_origin s origin).isSome

/-- `ListingsDb::update_listing`: raw overwrite keyed by id. -/
def update_listing (s : Store) (l : Listing) : Store :=
  { s with listings := upsertL l.id l s.listings }

/-- The tip normalization of `ListingsDb::create_listing` (lines 22-27):
`0.0` stays `0`, values within `0.01` of `2.5` or `5.0` normalize to the
tier, anything else silently becomes `0`. -/
def normalize_tip (p : ℚ) : ℚ :=
  if p = 0 then 0
  else if |p - 5/2| < 1/100 then 5/2
  else if |p - 5| < 1/100 then 5
  else 0

/-- `ListingsDb::create_listing` (lines 20-67): build the listing with
status `Active`, insert the record and both secondary indices. -/
def create_listing (s : Store) (request : CreateListingRequest)
    (new_id : String) (now : Nat) : Listing × Store :=
  let tip_percent := normalize_tip request.tip_percent
  let fees := ListingFees.calculate request.seller_wants_satoshis tip_percent
  let listing : Listing :=
    { id := new_id
      origin := request.origin
      seller_address := request.seller_address
      seller_ord_address := request.seller_ord_address
      fees := fees
      status := .active
      psbt_hex := none
      listing_utxo := none
      ordinal_utxo := request.ordinal_utxo
      created_at := now
      updated_at := now
      sold_at := none
      buyer_address := none
      purchase_txid := none }
  (listing,
   { listings := upsertL new_id listing s.listings
     origin_index := upsertS listing.origin new_id s.origin_index
     seller_index :=
       ((listing.seller_address, new_id), new_id) ::
       s.seller_index.filter (fun p => ¬ p.1 = (listing.seller_address, new_id)) })

inductive CancelResult where
  | notFound
  | notAuthorized
  | notActive
  | ok (l : Listing)
deriving DecidableEq

/-- `ListingsDb::cancel_listing` (lines 107-135): `Ok(None)` when absent;
`bail!("Not authorized ...")` on an authorization mismatch (checked
first); `bail!("Listing is not active")` when the status is terminal; on
success flip the status to `Cancelled`, refresh `updated_at`, persist,
and drop the origin-index entry.  Errors leave the store untouched. -/
def cancel_listing (s : Store) (id seller_ord_address : String) (now : Nat) :
    CancelResult × Store :=
  match get_listing s id with
  | none => (.notFound, s)
  | some listing =>
    if ¬ listing.seller_ord_address = seller_ord_address then (.notAuthorized, s)
    else if ¬ listing.status = .active then (.notActive, s)
    else
      let l := { listing with status := .cancelled, updated_at := now }
      let s1 := update_listing s l
      (.ok l, { s1 with origin_index := removeS l.origin s1.origin_index })

/-- `ListingsDb::mark_listing_sold` (lines 138-167): same shape as
cancellation but with no authorization argument, setting the four sale
fields and `updated_at`, and dropping the origin-index entry.  (No
handler in src calls it; the broadcast handler mutates the store
directly.) -/
def mark_listing_sold (s : Store) (id buyer_address purchase_txid : String)
    (now : Nat) : CancelResult × Store :=
  match get_listing s id with
  | none => (.notFound, s)
  | some listing =>
    if ¬ listing.status = .active then (.notActive, s)
    else
      let l := { listing with
                   status := .sold
                   sold_at := some now
                   buyer_address := some buyer_address
                   purchase_txid := some purchase_txid
                   updated_at := now }
      let s1 := update_listing s l
      (.ok l, { s1 with origin_index := removeS l.origin s1.origin_index })

inductive CreateOutcome where
  | conflict
  | invalidTip
  | created (l : Listing)
deriving DecidableEq

/-- The `create_listing` handler (src/api/handlers.rs lines 307-354):
reject with 409 when the origin is already listed, reject tips outside
the three tiers, otherwise run the store's create. -/
def handler_create_listing (s : Store) (request : CreateListingRequest)
    (new_id : String) (now : Nat) : CreateOutcome × Store :=
  if is_origin_listed s request.origin then (.conflict, s)
  else if ¬ request.tip_percent = 0 ∧ ¬ request.tip_percent = 5/2 ∧
          ¬ request.tip_percent = 5 then (.invalidTip, s)
  else
    let r := create_listing s request new_id now
    (.created r.1, r.2)

inductive BroadcastResult where
  | notFound
  | notActive
  | rejected
  | ok (txid : String)
deriving DecidableEq

/-- The `broadcast_purchase` handler (src/api/handlers.rs lines 492-549)
from the point where the transaction bytes decoded successfully (decode
failures return before any store access): `accepted` is the
broadcaster's verdict and `txid` the id of the decoded transaction.  On
acceptance the handler sets `status`, `purchase_txid` and `sold_at` on
its in-memory copy and writes it back with the raw `update_listing`; it
does not touch the origin index and records no buyer. -/
def broadcast_purchase (s : Store) (listing_id : String) (accepted : Bool)
    (txid : String) (now : Nat) : BroadcastResult × Store :=
  match get_listing s listing_id with
  | none => (.notFound, s)
  | some listing =>
    if ¬ listing.status = .active then (.notActive, s)
    else if ¬ accepted then (.rejected, s)
    else
      let l := { listing with
                   status := .sold
                   purchase_txid := some txid
                   sold_at := some now }
      (.ok txid, update_listing s l)

/-- An `Active` listing for this origin is stored. -/
def has_active_listing (s : Store) (origin : String) : Bool :=
  s.listings.any (fun p => p.2.origin = origin ∧ p.2.status = .active)

/-! ## Derived quantities used by the theorems -/

/-- Total value of a list of buyer funding outputs. -/
def sumSats (utxos : List BuyerUtxo) : Nat := (utxos.map (·.satoshis)).sum

/-- Total value of a list of indexer outputs. -/
def sumGp (utxos : List GpUtxo) : Nat := (utxos.map (·.satoshis)).sum

/-- Total value of a transaction's outputs. -/
def outputsSum (r : PrepareResult) : Nat := (r.outputs.map (·.value)).sum

/-- The candidate-to-selection conversion of the funding loop
(src/api/handlers.rs lines 432-437). -/
def toBuyer (u : GpUtxo) : BuyerUtxo :=
  { txid := u.txid, vout := u.vout, satoshis := u.satoshis, script_hex := u.lock }

/-! ## Concrete fixtures for witnesses and counterexamples -/

def demoFees : ListingFees :=
  { seller_receives := 10000, marketplace_fee := 100, tip_amount := 0
    tip_percent := 0, total_price := 10100 }

def demoAsset : OrdinalUtxoRef :=
  { txid := "ATX", vout := 0, satoshis := 1, script := "AS" }

def demoListing : Listing :=
  { id := "L1", origin := "ORIG", seller_address := "SELLER"
    seller_ord_address := "SORD", fees := demoFees, status := .active
    psbt_hex := none, listing_utxo := none, ordinal_utxo := demoAsset
    created_at := 0, updated_at := 0, sold_at := none, buyer_address := none
    purchase_txid := none }

def demoUtxos : List BuyerUtxo :=
  [{ txid := "B1", vout := 1, satoshis := 6000, script_hex := "S1" },
   { txid := "B2", vout := 0, satoshis := 5200, script_hex := "S2" }]

/-- A funding list far short of the fixed outputs of `demoListing`. -/
def shortUtxos : List BuyerUtxo :=
  [{ txid := "B1", vout := 1, satoshis := 1000, script_hex := "S1" }]

/-! Helper facts about the assembled outputs, shared by the
conservation/dust/change theorems. -/

/-- Value of the fixed (non-change) outputs: asset carry (1 satoshi),
seller payment, and the combined marketplace amount. -/
def fixedOutputsVal (l : Listing) : Nat :=
  1 + l.fees.seller_receives + (l.fees.marketplace_fee + l.fees.tip_amount)

/-- The change amount the assembler computes: total input (1 satoshi for
the asset input plus the funding values) minus fixed outputs minus the
300-satoshi estimated miner fee, truncated at zero. -/
def changeVal (l : Listing) (utxos : List BuyerUtxo) : Nat :=
  (1 + sumSats utxos) - fixedOutputsVal l - 300

/-- Replace only the recorded value of the listing's asset UTXO. -/
def setAssetSats (l : Listing) (v : Nat) : Listing :=
  { l with ordinal_utxo := { l.ordinal_utxo with satoshis := v } }

/-! ## Funding selector -/

/-- The dust filter of the selection loop. -/
def spendFilter (utxos : List GpUtxo) : List GpUtxo :=
  utxos.filter (fun u => 546 ≤ u.satoshis)

/-- The selector witness fixture: a spendable output, a dust output that
must be skipped, the output that crosses the requirement, and a trailing
output that must never be selected. -/
def demoGp : List GpUtxo :=
  [{ txid := "G1", vout := 0, satoshis := 6000, lock := "K1" },
   { txid := "G2", vout := 1, satoshis := 400, lock := "K2" },
   { txid := "G3", vout := 2, satoshis := 5200, lock := "K3" },
   { txid := "G4", vout := 0, satoshis := 700, lock := "K4" }]

/-- A concrete well-formed store holding one active listing, for the
cancel witness. -/
def demoStore : Store :=
  { listings := [("L1", demoListing)]
    origin_index := [("ORIG", "L1")]
    seller_index := [(("SELLER", "L1"), "L1")] }

/-! ## The broadcast-purchase scenario shared by the finalize claims -/

def demoRequest : CreateListingRequest :=
  { origin := "ORIG", ordinal_utxo := demoAsset, seller_wants_satoshis := 10000
    tip_percent := 0, seller_address := "SELLER", seller_ord_address := "SORD" }

/-- The store after creating the demo listing through the handler. -/
def activeStore : Store :=
  (handler_create_listing Store.empty demoRequest "L1" 0).2

/-- The store after a successful broadcast purchase of that listing. -/
def soldStore : Store :=
  (broadcast_purchase activeStore "L1" true "TX" 5).2

/-! ## Arithmetic helpers -/

theorem wadd_eq {a b : Nat} (h : a + b < u64Mod) : wadd a b = a + b :=
  Nat.mod_eq_of_lt h

theorem sumSats_cons (u : BuyerUtxo) (l : List BuyerUtxo) :
    sumSats (u :: l) = u.satoshis + sumSats l := by
  simp [sumSats]

theorem foldl_wadd_eq (utxos : List BuyerUtxo) :
    ∀ a, a + sumSats utxos < u64Mod →
      utxos.foldl (fun acc u => wadd acc u.satoshis) a = a + sumSats utxos := by
  induction utxos with
  | nil => intro a _; simp [sumSats]
  | cons u rest ih =>
    intro a h
    rw [sumSats_cons] at h ⊢
    simp only [List.foldl_cons]
    rw [wadd_eq (by omega), ih (a + u.satoshis) (by omega)]
    omega

end Marketplace

namespace Marketplace

/-- C2: for every listing, buyer addresses and funding selection (whose
fee-plus-tip total fits in a `u64`), the assembled transaction has input 0
referencing the listing's asset UTXO with an empty input script, inputs
`1..N` referencing the selected funding outputs in order (also with empty
input scripts), output 0 paying 1 satoshi to the buyer's ordinal address,
output 1 paying `seller_receives` to the seller's payment address, output
2 paying `marketplace_fee + tip_amount` to the fee recipient exactly when
that sum is positive (any further output being a change output of at
least 546 satoshis to the buyer's change address), and one signature
request per funding input at positions `1..N` carrying that input's
txid, vout, value and locking script — none for input 0. -/
theorem build_purchase_tx_layout (l : Listing) (a b f : String)
    (utxos : List BuyerUtxo)
    (hmt : l.fees.marketplace_fee + l.fees.tip_amount < u64Mod) :
    (build_purchase_tx l a b utxos f).inputs.length = 1 + utxos.length ∧
    (build_purchase_tx l a b utxos f).inputs.head? =
      some { prev_txid := l.ordinal_utxo.txid
             prev_vout := l.ordinal_utxo.vout
             script_sig := "" } ∧
    (∀ i, (build_purchase_tx l a b utxos f).inputs[i + 1]? =
      (utxos[i]?).map (fun u =>
        ({ prev_txid := u.txid, prev_vout := u.vout, script_sig := "" } : TxIn))) ∧
    (∃ tail,
      (build_purchase_tx l a b utxos f).outputs =
        [{ value := 1, script_pubkey := a },
         { value := l.fees.seller_receives
           script_pubkey := l.seller_address }] ++
        (if 0 < l.fees.marketplace_fee + l.fees.tip_amount then
           [{ value := l.fees.marketplace_fee + l.fees.tip_amount
              script_pubkey := f }]
         else []) ++ tail ∧
      (tail = [] ∨ ∃ c, 546 ≤ c ∧ tail = [{ value := c, script_pubkey := b }])) ∧
    (∀ i, (build_purchase_tx l a b utxos f).sig_requests[i]? =
      (utxos[i]?).map (fun u =>
        ({ input_index := i + 1, prev_txid := u.txid, prev_vout := u.vout
           satoshis := u.satoshis, script_hex := u.script_hex } : SigRequest))) := by
  refine ⟨?_, ?_, ?_, ?_, ?_⟩
  · simp [build_purchase_tx]; omega
  · rfl
  · intro i
    simp [build_purchase_tx]
  · simp only [build_purchase_tx, wadd_eq hmt]
    refine ⟨_, rfl, ?_⟩
    split
    · next hc => exact Or.inr ⟨_, hc, rfl⟩
    · exact Or.inl rfl
  · intro i
    simp only [build_purchase_tx, List.getElem?_map, List.getElem?_enum]
    cases utxos[i]? <;> rfl

/-- Witness for `build_purchase_tx_layout` at a concrete listing and
funding selection. -/
theorem build_purchase_tx_layout_witness :
    demoListing.fees.marketplace_fee + demoListing.fees.tip_amount < u64Mod ∧
    (build_purchase_tx demoListing "BORD" "BPAY" demoUtxos "MFEE").inputs.length =
      1 + demoUtxos.length :=
  ⟨by decide,
   (build_purchase_tx_layout demoListing "BORD" "BPAY" "MFEE" demoUtxos
     (by decide)).1⟩

theorem build_outputs_eq (l : Listing) (a b f : String) (utxos : List BuyerUtxo)
    (h1 : 1 + sumSats utxos < u64Mod)
    (h2 : fixedOutputsVal l + 300 < u64Mod) :
    (build_purchase_tx l a b utxos f).outputs =
      [{ value := 1, script_pubkey := a },
       { value := l.fees.seller_receives, script_pubkey := l.seller_address }] ++
      (if 0 < l.fees.marketplace_fee + l.fees.tip_amount then
         [{ value := l.fees.marketplace_fee + l.fees.tip_amount
            script_pubkey := f }]
       else []) ++
      (if 546 ≤ changeVal l utxos then
         [{ value := changeVal l utxos, script_pubkey := b }]
       else []) := by
  unfold fixedOutputsVal at h2
  simp only [build_purchase_tx]
  rw [foldl_wadd_eq utxos 1 h1]
  rw [wadd_eq (show l.fees.marketplace_fee + l.fees.tip_amount < u64Mod by omega)]
  rw [wadd_eq (show 1 + l.fees.seller_receives < u64Mod by omega)]
  rw [wadd_eq (show 1 + l.fees.seller_receives +
    (l.fees.marketplace_fee + l.fees.tip_amount) < u64Mod by omega)]
  rw [wadd_eq (show 1 + l.fees.seller_receives +
    (l.fees.marketplace_fee + l.fees.tip_amount) + 300 < u64Mod by omega)]
  have hch : (1 + sumSats utxos) -
      (1 + l.fees.seller_receives +
        (l.fees.marketplace_fee + l.fees.tip_amount) + 300) =
      changeVal l utxos := by
    unfold changeVal fixedOutputsVal
    omega
  rw [hch]

/-- C3: a change output back to the buyer's change address is emitted iff
the remainder `total_input − (asset + seller + fee outputs) − 300` is at
least the 546-satoshi dust threshold, and then carries exactly that
remainder; a remainder of 545 yields no change output, a remainder of
exactly 546 yields one of value 546. -/
theorem change_dust_rule (l : Listing) (a b f : String) (utxos : List BuyerUtxo)
    (h1 : 1 + sumSats utxos < u64Mod)
    (h2 : fixedOutputsVal l + 300 < u64Mod) :
    ((build_purchase_tx l a b utxos f).outputs.drop
        (if 0 < l.fees.marketplace_fee + l.fees.tip_amount then 3 else 2) =
      if 546 ≤ changeVal l utxos then
        [{ value := changeVal l utxos, script_pubkey := b }] else []) ∧
    (changeVal l utxos = 545 →
      (build_purchase_tx l a b utxos f).outputs.drop
        (if 0 < l.fees.marketplace_fee + l.fees.tip_amount then 3 else 2) = []) ∧
    (changeVal l utxos = 546 →
      (build_purchase_tx l a b utxos f).outputs.drop
        (if 0 < l.fees.marketplace_fee + l.fees.tip_amount then 3 else 2) =
      [{ value := 546, script_pubkey := b }]) := by
  have hmain : (build_purchase_tx l a b utxos f).outputs.drop
      (if 0 < l.fees.marketplace_fee + l.fees.tip_amount then 3 else 2) =
      if 546 ≤ changeVal l utxos then
        [{ value := changeVal l utxos, script_pubkey := b }] else [] := by
    rw [build_outputs_eq l a b f utxos h1 h2]
    by_cases hm : 0 < l.fees.marketplace_fee + l.fees.tip_amount <;>
      simp [hm]
  refine ⟨hmain, fun h545 => ?_, fun h546 => ?_⟩
  · rw [hmain, h545]
    simp
  · rw [hmain, h546]
    simp

/-- Witness for `change_dust_rule` at a concrete listing and funding
selection (remainder 800, change output emitted). -/
theorem change_dust_rule_witness :
    1 + sumSats demoUtxos < u64Mod ∧
    fixedOutputsVal demoListing + 300 < u64Mod ∧
    (build_purchase_tx demoListing "BORD" "BPAY" demoUtxos "MFEE").outputs.drop
        (if 0 < demoListing.fees.marketplace_fee + demoListing.fees.tip_amount
         then 3 else 2) =
      (if 546 ≤ changeVal demoListing demoUtxos then
        [{ value := changeVal demoListing demoUtxos, script_pubkey := "BPAY" }]
       else []) :=
  ⟨by decide, by decide,
   (change_dust_rule demoListing "BORD" "BPAY" "MFEE" demoUtxos
     (by decide) (by decide)).1⟩

/-- C10 (implicit): the assembler values the asset input at exactly 1
satoshi no matter what value the listing's asset UTXO records — the whole
result is invariant under changing that recorded value — and the change
amount is computed from `1 + Σ funding` only, so any excess the asset
UTXO actually carries is forfeited to miner fee. -/
theorem asset_input_counted_as_one (l : Listing) (a b f : String)
    (utxos : List BuyerUtxo)
    (h1 : 1 + sumSats utxos < u64Mod)
    (h2 : fixedOutputsVal l + 300 < u64Mod) :
    (∀ v, build_purchase_tx (setAssetSats l v) a b utxos f =
      build_purchase_tx l a b utxos f) ∧
    ((build_purchase_tx l a b utxos f).outputs.drop
        (if 0 < l.fees.marketplace_fee + l.fees.tip_amount then 3 else 2) =
      if 546 ≤ changeVal l utxos then
        [{ value := changeVal l utxos, script_pubkey := b }] else []) := by
  constructor
  · intro v
    rfl
  · rw [build_outputs_eq l a b f utxos h1 h2]
    by_cases hm : 0 < l.fees.marketplace_fee + l.fees.tip_amount <;>
      simp [hm]

/-- Witness for `asset_input_counted_as_one`: at the concrete fixture,
inflating the recorded asset value to 5000 satoshis leaves the assembled
transaction unchanged. -/
theorem asset_input_counted_as_one_witness :
    1 + sumSats demoUtxos < u64Mod ∧
    fixedOutputsVal demoListing + 300 < u64Mod ∧
    build_purchase_tx (setAssetSats demoListing 5000) "BORD" "BPAY" demoUtxos
        "MFEE" =
      build_purchase_tx demoListing "BORD" "BPAY" demoUtxos "MFEE" :=
  ⟨by decide, by decide,
   (asset_input_counted_as_one demoListing "BORD" "BPAY" "MFEE" demoUtxos
     (by decide) (by decide)).1 5000⟩

/-- C1 (counterexample): at a concrete listing (seller asks 10000, fee
100) with a single 1000-satoshi funding output, the assembled transaction
pays out 10101 satoshis plus the 300-satoshi estimated fee from only
1001 satoshis of input — value conservation fails as universally
stated. -/
theorem value_conservation_cex :
    ¬ (outputsSum (build_purchase_tx demoListing "BORD" "BPAY" shortUtxos
          "MFEE") + 300 ≤
        demoListing.ordinal_utxo.satoshis + sumSats shortUtxos) := by decide

/-- C1 (amended): whenever the assembler is not invoked underfunded —
the 1-satoshi asset carry plus the funding values cover the fixed
outputs plus the 300-satoshi estimated fee — and the asset UTXO carries
at least 1 satoshi, the produced outputs plus the estimated fee never
exceed the total input value, and the change computation is an exact
(non-truncated, non-overflowing) subtraction. -/
theorem value_conservation_when_funded (l : Listing) (a b f : String)
    (utxos : List BuyerUtxo)
    (h1 : 1 + sumSats utxos < u64Mod)
    (h2 : fixedOutputsVal l + 300 < u64Mod)
    (hasset : 1 ≤ l.ordinal_utxo.satoshis)
    (hfund : fixedOutputsVal l + 300 ≤ 1 + sumSats utxos) :
    outputsSum (build_purchase_tx l a b utxos f) + 300 ≤
      l.ordinal_utxo.satoshis + sumSats utxos ∧
    fixedOutputsVal l + 300 + changeVal l utxos = 1 + sumSats utxos := by
  have hsum : outputsSum (build_purchase_tx l a b utxos f) =
      1 + l.fees.seller_receives +
      (if 0 < l.fees.marketplace_fee + l.fees.tip_amount then
        l.fees.marketplace_fee + l.fees.tip_amount else 0) +
      (if 546 ≤ changeVal l utxos then changeVal l utxos else 0) := by
    unfold outputsSum
    rw [build_outputs_eq l a b f utxos h1 h2]
    by_cases hm : 0 < l.fees.marketplace_fee + l.fees.tip_amount <;>
      by_cases hc : 546 ≤ changeVal l utxos <;>
      simp [hm, hc] <;> omega
  have hch : fixedOutputsVal l + 300 + changeVal l utxos = 1 + sumSats utxos := by
    unfold changeVal
    omega
  refine ⟨?_, hch⟩
  rw [hsum]
  unfold fixedOutputsVal at hch
  by_cases hm : 0 < l.fees.marketplace_fee + l.fees.tip_amount <;>
    by_cases hc : 546 ≤ changeVal l utxos <;>
    simp [hm, hc] <;> omega

/-- Witness for `value_conservation_when_funded` at the concrete
fixture. -/
theorem value_conservation_when_funded_witness :
    1 + sumSats demoUtxos < u64Mod ∧
    fixedOutputsVal demoListing + 300 < u64Mod ∧
    1 ≤ demoListing.ordinal_utxo.satoshis ∧
    fixedOutputsVal demoListing + 300 ≤ 1 + sumSats demoUtxos ∧
    outputsSum (build_purchase_tx demoListing "BORD" "BPAY" demoUtxos
        "MFEE") + 300 ≤
      demoListing.ordinal_utxo.satoshis + sumSats demoUtxos :=
  ⟨by decide, by decide, by decide, by decide,
   (value_conservation_when_funded demoListing "BORD" "BPAY" "MFEE" demoUtxos
     (by decide) (by decide) (by decide) (by decide)).1⟩

/-- C8: invoked underfunded (10101 satoshis of fixed outputs against 1001
satoshis of input), `build_purchase_tx` does not fail: it returns an
unsigned transaction — change clamped to zero by the saturating
subtraction — instead of any `Underfunded` error (no such failure path
exists in the function). -/
theorem underfunded_emits_transaction :
    (build_purchase_tx demoListing "BORD" "BPAY" shortUtxos "MFEE").outputs =
      [{ value := 1, script_pubkey := "BORD" },
       { value := 10000, script_pubkey := "SELLER" },
       { value := 100, script_pubkey := "MFEE" }] ∧
    outputsSum (build_purchase_tx demoListing "BORD" "BPAY" shortUtxos
      "MFEE") = 10101 ∧
    1 + sumSats shortUtxos = 1001 := by decide

theorem sumGp_cons (u : GpUtxo) (l : List GpUtxo) :
    sumGp (u :: l) = u.satoshis + sumGp l := by
  simp [sumGp]

theorem spendFilter_cons_pos (u : GpUtxo) (l : List GpUtxo)
    (h : 546 ≤ u.satoshis) : spendFilter (u :: l) = u :: spendFilter l := by
  simp [spendFilter, List.filter_cons, h]

theorem spendFilter_cons_neg (u : GpUtxo) (l : List GpUtxo)
    (h : ¬ 546 ≤ u.satoshis) : spendFilter (u :: l) = spendFilter l := by
  simp [spendFilter, List.filter_cons, h]

/-- Full characterization of the selection loop, generalized over the
running accumulator: on success the selection is the dust-filtered
shortest prefix whose filtered total reaches the requirement; on
exhaustion it is the dust-filtered whole list. -/
theorem select_funding_char (utxos : List GpUtxo) :
    ∀ required collected, collected < required →
      collected + sumGp utxos < u64Mod →
      ((required ≤ (select_funding utxos required collected).2 →
        ∃ k, k ≤ utxos.length ∧
          (select_funding utxos required collected).1 =
            (spendFilter (utxos.take k)).map toBuyer ∧
          (select_funding utxos required collected).2 =
            collected + sumGp (spendFilter (utxos.take k)) ∧
          ∀ j < k, collected + sumGp (spendFilter (utxos.take j)) < required) ∧
       ((select_funding utxos required collected).2 < required →
        (select_funding utxos required collected).1 =
          (spendFilter utxos).map toBuyer ∧
        (select_funding utxos required collected).2 =
          collected + sumGp (spendFilter utxos))) := by
  induction utxos with
  | nil =>
    intro required collected hlt _
    constructor
    · intro hge
      simp only [select_funding] at hge
      exact absurd hge (Nat.not_le.mpr hlt)
    · intro _
      simp [select_funding, spendFilter, sumGp]
  | cons u rest ih =>
    intro required collected hlt hmod
    rw [sumGp_cons] at hmod
    by_cases hsp : 546 ≤ u.satoshis
    · have hwadd : wadd collected u.satoshis = collected + u.satoshis :=
        wadd_eq (by omega)
      by_cases hreq : required ≤ collected + u.satoshis
      · have hres : select_funding (u :: rest) required collected =
            ([toBuyer u], collected + u.satoshis) := by
          simp [select_funding, hsp, hwadd, hreq, toBuyer]
        rw [hres]
        constructor
        · intro _
          refine ⟨1, by simp, ?_, ?_, ?_⟩
          · simp [spendFilter, hsp]
          · simp [spendFilter, sumGp, hsp]
          · intro j hj
            interval_cases j
            simpa [spendFilter, sumGp] using hlt
        · intro hlt2
          exact absurd hreq (Nat.not_le.mpr hlt2)
      · have hres : select_funding (u :: rest) required collected =
            (toBuyer u :: (select_funding rest required (collected + u.satoshis)).1,
             (select_funding rest required (collected + u.satoshis)).2) := by
          simp [select_funding, hsp, hwadd, hreq, toBuyer]
        rw [hres]
        have ihx := ih required (collected + u.satoshis) (by omega) (by omega)
        constructor
        · intro hge
          obtain ⟨k, hk, hsel, htot, hjs⟩ := ihx.1 hge
          refine ⟨k + 1, by simpa using hk, ?_, ?_, ?_⟩
          · simp [List.take, spendFilter_cons_pos u _ hsp, hsel]
          · simp only [List.take, spendFilter_cons_pos u _ hsp, sumGp_cons]
            omega
          · intro j hj
            cases j with
            | zero => simpa [spendFilter, sumGp] using hlt
            | succ j' =>
              have := hjs j' (by omega)
              simp only [List.take, spendFilter_cons_pos u _ hsp, sumGp_cons]
              omega
        · intro hlt2
          obtain ⟨hsel, htot⟩ := ihx.2 hlt2
          refine ⟨?_, ?_⟩
          · simp [spendFilter_cons_pos u _ hsp, hsel]
          · simp only [spendFilter_cons_pos u _ hsp, sumGp_cons]
            omega
    · have hres : select_funding (u :: rest) required collected =
          select_funding rest required collected := by
        simp [select_funding, hsp]
      rw [hres]
      have ihx := ih required collected hlt (by omega)
      constructor
      · intro hge
        obtain ⟨k, hk, hsel, htot, hjs⟩ := ihx.1 hge
        refine ⟨k + 1, by simpa using hk, ?_, ?_, ?_⟩
        · simp [List.take, spendFilter_cons_neg u _ hsp, hsel]
        · simp only [List.take, spendFilter_cons_neg u _ hsp]
          omega
        · intro j hj
          cases j with
          | zero => simpa [spendFilter, sumGp] using hlt
          | succ j' =>
            have := hjs j' (by omega)
            simp only [List.take, spendFilter_cons_neg u _ hsp]
            omega
      · intro hlt2
        obtain ⟨hsel, htot⟩ := ihx.2 hlt2
        exact ⟨by simp [spendFilter_cons_neg u _ hsp, hsel],
               by simp only [spendFilter_cons_neg u _ hsp]; omega⟩

/-- C5: the funding selector walks the candidates in the order received,
skips every output below the 546-satoshi dust threshold, accumulates the
rest, and stops with the first output that brings the accumulated value
to `R = total_price + 1000`: the selection is the dust-filtered shortest
candidate prefix whose filtered total reaches `R` (every shorter prefix
stays below `R`, so nothing after the crossing output is selected).  If
the candidates run out first, it fails reporting exactly `R` and the
accumulated (dust-filtered) available total. -/
theorem funding_selector_spec (utxos : List GpUtxo) (total_price : Nat)
    (hmod : total_price + 1000 + sumGp utxos < u64Mod) :
    (∀ sel tot, prepare_purchase_selection utxos total_price = .ok (sel, tot) →
      ∃ k, k ≤ utxos.length ∧
        sel = (spendFilter (utxos.take k)).map toBuyer ∧
        tot = sumGp (spendFilter (utxos.take k)) ∧
        total_price + 1000 ≤ tot ∧
        ∀ j < k, sumGp (spendFilter (utxos.take j)) < total_price + 1000) ∧
    (∀ req avail,
      prepare_purchase_selection utxos total_price = .error (req, avail) →
      req = total_price + 1000 ∧ avail = sumGp (spendFilter utxos) ∧
      avail < total_price + 1000) := by
  have hreq : wadd total_price 1000 = total_price + 1000 := wadd_eq (by omega)
  have hchar := select_funding_char utxos (total_price + 1000) 0
    (by omega) (by omega)
  constructor
  · intro sel tot hok
    simp only [prepare_purchase_selection, hreq] at hok
    split at hok
    · exact Except.noConfusion hok
    · next hx =>
      injection hok with h
      have h1 : (select_funding utxos (total_price + 1000) 0).1 = sel := by
        rw [h]
      have h2 : (select_funding utxos (total_price + 1000) 0).2 = tot := by
        rw [h]
      obtain ⟨k, hk, hsel, htot, hjs⟩ := hchar.1 (Nat.le_of_not_lt hx)
      refine ⟨k, hk, ?_, ?_, ?_, ?_⟩
      · rw [← h1, hsel]
      · rw [← h2, htot]; omega
      · rw [← h2]; exact Nat.le_of_not_lt hx
      · intro j hj
        have := hjs j hj
        omega
  · intro req avail herr
    simp only [prepare_purchase_selection, hreq] at herr
    split at herr
    · next hx =>
      injection herr with h
      have h1 : total_price + 1000 = req := congrArg Prod.fst h
      have h2 : (select_funding utxos (total_price + 1000) 0).2 = avail :=
        congrArg Prod.snd h
      obtain ⟨hsel, htot⟩ := hchar.2 hx
      refine ⟨h1.symm, ?_, ?_⟩
      · rw [← h2, htot]; omega
      · rw [← h2]; exact hx
    · exact Except.noConfusion herr

/-- Witness for `funding_selector_spec`: price 10100, requirement 11100;
the 400-satoshi output is skipped as dust, selection stops after the
third candidate with 11200 satoshis, and the fourth is never taken. -/
theorem funding_selector_spec_witness :
    10100 + 1000 + sumGp demoGp < u64Mod ∧
    ∃ k, k ≤ demoGp.length ∧
      [toBuyer { txid := "G1", vout := 0, satoshis := 6000, lock := "K1" },
       toBuyer { txid := "G3", vout := 2, satoshis := 5200, lock := "K3" }] =
        (spendFilter (demoGp.take k)).map toBuyer ∧
      (11200 : Nat) = sumGp (spendFilter (demoGp.take k)) ∧
      10100 + 1000 ≤ (11200 : Nat) ∧
      ∀ j < k, sumGp (spendFilter (demoGp.take j)) < 10100 + 1000 :=
  ⟨by decide,
   (funding_selector_spec demoGp 10100 (by decide)).1
     [toBuyer { txid := "G1", vout := 0, satoshis := 6000, lock := "K1" },
      toBuyer { txid := "G3", vout := 2, satoshis := 5200, lock := "K3" }]
     11200 (by rfl)⟩

/-! ## Listing store claims -/

/-- C9: the contract of `cancel_listing`.  A missing id yields not-found;
an authorization mismatch yields the unauthorized failure; a non-`Active`
status yields the invalid-state failure (so cancelling a `Cancelled` or
`Sold` listing always fails, and a successful cancel can never succeed a
second time); on success the status becomes `Cancelled` and `updated_at`
is refreshed while every other field is preserved, the record is
re-persisted, and the origin-index entry is removed.  Failures leave the
store untouched.  (`l.id = id` is the keyed-store invariant: a stored
record's id field equals its key.) -/
theorem cancel_semantics (s : Store) (id addr : String) (now : Nat) :
    (get_listing s id = none → cancel_listing s id addr now = (.notFound, s)) ∧
    (∀ l, get_listing s id = some l → ¬ l.seller_ord_address = addr →
      cancel_listing s id addr now = (.notAuthorized, s)) ∧
    (∀ l, get_listing s id = some l → l.seller_ord_address = addr →
      ¬ l.status = .active → cancel_listing s id addr now = (.notActive, s)) ∧
    (∀ l, get_listing s id = some l → l.id = id →
      l.seller_ord_address = addr → l.status = .active →
      cancel_listing s id addr now =
        (.ok { l with status := .cancelled, updated_at := now },
         { listings :=
             upsertL id { l with status := .cancelled, updated_at := now }
               s.listings
           origin_index := removeS l.origin s.origin_index
           seller_index := s.seller_index }) ∧
      ∀ now2, (cancel_listing (cancel_listing s id addr now).2 id addr now2).1 =
        .notActive) := by
  refine ⟨?_, ?_, ?_, ?_⟩
  · intro h
    simp [cancel_listing, h]
  · intro l hl hauth
    simp [cancel_listing, hl, hauth]
  · intro l hl hauth hstat
    simp [cancel_listing, hl, hauth, hstat]
  · intro l hl hid hauth hstat
    subst hid
    have hmain : cancel_listing s l.id addr now =
        (.ok { l with status := .cancelled, updated_at := now },
         { listings :=
             upsertL l.id { l with status := .cancelled, updated_at := now }
               s.listings
           origin_index := removeS l.origin s.origin_index
           seller_index := s.seller_index }) := by
      simp [cancel_listing, hl, hauth, hstat, update_listing]
    refine ⟨hmain, ?_⟩
    intro now2
    rw [hmain]
    have hget : get_listing
        { listings :=
            upsertL l.id { l with status := .cancelled, updated_at := now }
              s.listings
          origin_index := removeS l.origin s.origin_index
          seller_index := s.seller_index } l.id =
        some { l with status := .cancelled, updated_at := now } := by
      simp [get_listing, upsertL]
    simp only [cancel_listing, hget]
    simp [hauth]

/-- Witness for `cancel_semantics`: the success case at a concrete
store. -/
theorem cancel_semantics_witness :
    get_listing demoStore "L1" = some demoListing ∧
    demoListing.id = "L1" ∧
    demoListing.seller_ord_address = "SORD" ∧
    demoListing.status = .active ∧
    cancel_listing demoStore "L1" "SORD" 7 =
      (.ok { demoListing with status := .cancelled, updated_at := 7 },
       { listings :=
           upsertL "L1" { demoListing with status := .cancelled, updated_at := 7 }
             demoStore.listings
         origin_index := removeS demoListing.origin demoStore.origin_index
         seller_index := demoStore.seller_index }) :=
  ⟨rfl, rfl, rfl, rfl,
   ((cancel_semantics demoStore "L1" "SORD" 7).2.2.2 demoListing
     rfl rfl rfl rfl).1⟩

/-- C6 (failing run): starting from the empty store, create a listing for
origin `ORIG` through the handler, then finalize a purchase through
`broadcast_purchase` with the broadcaster accepting.  The listing's
status leaves `Active` (it is `Sold`), yet the origin→id index entry is
still present, so the index entry exists with no `Active` listing for
the origin — and the origin is consequently still reported as listed,
permanently blocking re-listing.  The store layer's `mark_listing_sold`
would have removed the entry; the handler bypasses it. -/
theorem origin_index_stale_after_broadcast :
    (soldStore.origin_index.find? (fun p => p.1 = "ORIG")).map Prod.snd =
      some "L1" ∧
    has_active_listing soldStore "ORIG" = false ∧
    (get_listing soldStore "L1").map Listing.status = some .sold ∧
    is_origin_listed soldStore "ORIG" = true :=
  ⟨rfl, rfl, rfl, rfl⟩

/-- C7 (failing run): on broadcaster acceptance the handler's sold
transition sets `status`, `purchase_txid` and `sold_at` — but records no
buyer: `buyer_address` remains `none` even though the status left
`Active`, which is exactly the partial application the claim rules out
(`update_listing` is used instead of the store's `mark_listing_sold`,
and the broadcast request carries no buyer identity at all).  The
no-mutation-on-rejection half does hold: a rejected broadcast returns
the store unchanged. -/
theorem broadcast_sold_without_buyer :
    (broadcast_purchase activeStore "L1" true "TX" 5).1 = .ok "TX" ∧
    (get_listing soldStore "L1").map Listing.status = some .sold ∧
    (get_listing soldStore "L1").map Listing.purchase_txid =
      some (some "TX") ∧
    (get_listing soldStore "L1").map Listing.sold_at = some (some 5) ∧
    (get_listing soldStore "L1").map Listing.buyer_address = some none ∧
    broadcast_purchase activeStore "L1" false "TX" 5 = (.rejected, activeStore) :=
  ⟨rfl, rfl, rfl, rfl, rfl, rfl⟩

/-! ## Binade exponent lemmas (towards the fee-model claim) -/

theorem lgAux_correct : ∀ fuel n, 0 < n → n ≤ fuel →
    2 ^ lgAux fuel n ≤ n ∧ n < 2 ^ (lgAux fuel n + 1) := by
  intro fuel
  induction fuel with
  | zero => intro n h0 h1; omega
  | succ f ih =>
    intro n h0 h1
    by_cases hn : n ≤ 1
    · have : n = 1 := by omega
      subst this
      simp [lgAux]
    · have h2 : 0 < n / 2 := by omega
      have h3 : n / 2 ≤ f := by omega
      have := ih (n / 2) h2 h3
      simp only [lgAux, if_neg hn]
      constructor
      · calc 2 ^ (lgAux f (n / 2) + 1) = 2 ^ lgAux f (n / 2) * 2 := by ring
        _ ≤ n / 2 * 2 := by omega
        _ ≤ n := by omega
      · calc n < n / 2 * 2 + 2 := by omega
        _ ≤ 2 ^ (lgAux f (n / 2) + 1) * 2 := by omega
        _ = 2 ^ (lgAux f (n / 2) + 1 + 1) := by ring

theorem lg_correct (n : Nat) (h : 0 < n) :
    2 ^ lg n ≤ n ∧ n < 2 ^ (lg n + 1) :=
  lgAux_correct n n h le_rfl

theorem zpow_le_qexp_aux {e f : ℤ} (h : (2:ℚ) ^ e ≤ 2 ^ f) : e ≤ f := by
  by_contra hc
  push_neg at hc
  have h2 : (2:ℚ) ^ f < 2 ^ e :=
    zpow_lt_zpow_right₀ (by norm_num) hc
  exact absurd h (not_le.mpr h2)

theorem qexp_correct (x : ℚ) (hx : 0 < x) :
    (2:ℚ) ^ qexp x ≤ x ∧ x < 2 ^ (qexp x + 1) := by
  unfold qexp
  by_cases h1 : (1:ℚ) ≤ x
  · rw [if_pos h1]
    set n : ℕ := ⌊x⌋.toNat with hn
    have hfl : (0:ℤ) < ⌊x⌋ := by
      have h1' : (1:ℤ) ≤ ⌊x⌋ := Int.le_floor.mpr (by exact_mod_cast h1)
      omega
    have hnpos : 0 < n := by simp [hn]; omega
    have hcast : (n : ℤ) = ⌊x⌋ := Int.toNat_of_nonneg (by omega)
    obtain ⟨ha, hb⟩ := lg_correct n hnpos
    constructor
    · have : ((2 ^ lg n : ℕ) : ℚ) ≤ (n : ℚ) := by exact_mod_cast ha
      calc (2:ℚ) ^ (lg n : ℤ) = ((2 ^ lg n : ℕ) : ℚ) := by
            rw [zpow_natCast]; push_cast; ring
        _ ≤ (n : ℚ) := this
        _ ≤ x := by
            have := Int.floor_le x
            rw [← hcast] at this
            exact_mod_cast this
    · have hlt : x < (⌊x⌋ : ℚ) + 1 := Int.lt_floor_add_one x
      have : ((n : ℚ) + 1) ≤ ((2 ^ (lg n + 1) : ℕ) : ℚ) := by exact_mod_cast hb
      calc x < (⌊x⌋ : ℚ) + 1 := hlt
        _ = (n : ℚ) + 1 := by rw [← hcast]; push_cast; ring
        _ ≤ ((2 ^ (lg n + 1) : ℕ) : ℚ) := this
        _ = (2:ℚ) ^ ((lg n : ℤ) + 1) := by
            rw [show (lg n : ℤ) + 1 = ((lg n + 1 : ℕ) : ℤ) by push_cast; ring,
              zpow_natCast]
            push_cast; ring
  · rw [if_neg h1]
    push_neg at h1
    have hxinv : (1:ℚ) < x⁻¹ := (one_lt_inv₀ hx).mpr h1
    set n : ℕ := ⌊x⁻¹⌋.toNat with hn
    have hfl : (0:ℤ) < ⌊x⁻¹⌋ := by
      have := Int.le_floor.mpr (show ((1:ℤ):ℚ) ≤ x⁻¹ by exact_mod_cast hxinv.le)
      omega
    have hnpos : 0 < n := by simp [hn]; omega
    have hcast : (n : ℤ) = ⌊x⁻¹⌋ := Int.toNat_of_nonneg (by omega)
    obtain ⟨ha, hb⟩ := lg_correct n hnpos
    have hun : ((2 ^ lg n : ℕ) : ℚ) ≤ x⁻¹ := by
      calc ((2 ^ lg n : ℕ) : ℚ) ≤ (n : ℚ) := by exact_mod_cast ha
        _ ≤ x⁻¹ := by
            have := Int.floor_le x⁻¹
            rw [← hcast] at this
            exact_mod_cast this
    have hup : x⁻¹ < ((2 ^ (lg n + 1) : ℕ) : ℚ) := by
      calc x⁻¹ < (⌊x⁻¹⌋ : ℚ) + 1 := Int.lt_floor_add_one _
        _ = (n : ℚ) + 1 := by rw [← hcast]; push_cast; ring
        _ ≤ ((2 ^ (lg n + 1) : ℕ) : ℚ) := by exact_mod_cast hb
    have hzn : ((2 ^ lg n : ℕ) : ℚ) = (2:ℚ) ^ (lg n : ℤ) := by
      rw [zpow_natCast]; push_cast; ring
    have hzn1 : ((2 ^ (lg n + 1) : ℕ) : ℚ) = (2:ℚ) ^ ((lg n : ℤ) + 1) := by
      rw [show (lg n : ℤ) + 1 = ((lg n + 1 : ℕ) : ℤ) by push_cast; ring,
        zpow_natCast]
      push_cast; ring
    rw [hzn] at hun
    rw [hzn1] at hup
    -- 2 ^ (-(lg n + 1)) < x ≤ 2 ^ (-(lg n))
    have hxle : x ≤ (2:ℚ) ^ (-(lg n : ℤ)) := by
      rw [zpow_neg]
      exact (le_inv_comm₀ (by positivity) hx).mp hun
    have hxgt : (2:ℚ) ^ (-((lg n : ℤ) + 1)) < x := by
      rw [zpow_neg]
      exact (inv_lt_comm₀ hx (by positivity)).mp hup
    by_cases h2 : (2:ℚ) ^ (-(lg n : ℤ)) ≤ x
    · rw [if_pos h2]
      have hxeq : x = (2:ℚ) ^ (-(lg n : ℤ)) := le_antisymm hxle h2
      constructor
      · rw [hxeq]
      · rw [hxeq]
        exact zpow_lt_zpow_right₀ (by norm_num) (by omega)
    · rw [if_neg h2]
      push_neg at h2
      constructor
      · calc (2:ℚ) ^ (-(lg n : ℤ) - 1) = 2 ^ (-((lg n : ℤ) + 1)) := by ring_nf
        _ ≤ x := hxgt.le
      · calc x < (2:ℚ) ^ (-(lg n : ℤ)) := h2
        _ = 2 ^ (-(lg n : ℤ) - 1 + 1) := by ring_nf

theorem zpow_lt_qexp_aux {e f : ℤ} (h : (2:ℚ) ^ e < 2 ^ f) : e < f := by
  by_contra hc
  push_neg at hc
  exact absurd h (not_lt.mpr (zpow_le_zpow_right₀ (by norm_num) hc))

theorem qexp_eq_of (x : ℚ) (e : ℤ) (h1 : (2:ℚ) ^ e ≤ x)
    (h2 : x < 2 ^ (e + 1)) : qexp x = e := by
  have hx : 0 < x := lt_of_lt_of_le (by positivity) h1
  obtain ⟨ha, hb⟩ := qexp_correct x hx
  have c1 : qexp x < e + 1 := zpow_lt_qexp_aux (lt_of_le_of_lt ha h2)
  have c2 : e < qexp x + 1 := zpow_lt_qexp_aux (lt_of_le_of_lt h1 hb)
  omega

/-! ## Rounding lemmas -/

theorem zpow_cancel (e : ℤ) (y : ℚ) : y * 2 ^ (e - 52) * 2 ^ ((52:ℤ) - e) = y := by
  rw [mul_assoc, ← zpow_add₀ (show (2:ℚ) ≠ 0 by norm_num)]
  norm_num

/-- If `x` lies in the lower half-ulp interval `[d, d + ulp/2)` of the
representable value `d = k * 2^(e-52)` (with `k` a normal significand),
rounding sends `x` down to `d`. -/
theorem roundF64_eq_down (x : ℚ) (e k : ℤ) (hk1 : 2 ^ 52 ≤ k) (hk2 : k < 2 ^ 53)
    (h1 : (k : ℚ) * 2 ^ (e - 52) ≤ x) (h2 : x < ((k : ℚ) + 1/2) * 2 ^ (e - 52)) :
    roundF64 x = (k : ℚ) * 2 ^ (e - 52) := by
  have hp : (0:ℚ) < 2 ^ (e - 52) := by positivity
  have hp2 : (0:ℚ) < 2 ^ ((52:ℤ) - e) := by positivity
  have hkq : (2:ℚ) ^ (52:ℕ) ≤ (k : ℚ) := by exact_mod_cast hk1
  have hkq2 : (k : ℚ) < 2 ^ (53:ℕ) := by exact_mod_cast hk2
  have hkq3 : (k : ℚ) ≤ 2 ^ (53:ℕ) - 1 := by
    have : k ≤ 2 ^ 53 - 1 := by omega
    have h' : (k : ℚ) ≤ ((2 ^ 53 - 1 : ℤ) : ℚ) := by exact_mod_cast this
    calc (k:ℚ) ≤ ((2 ^ 53 - 1 : ℤ) : ℚ) := h'
      _ = 2 ^ (53:ℕ) - 1 := by push_cast; ring
  have hx : 0 < x := lt_of_lt_of_le (by positivity) h1
  have hqe : qexp x = e := by
    refine qexp_eq_of x e ?_ ?_
    · calc (2:ℚ) ^ e = 2 ^ (52:ℤ) * 2 ^ (e - 52) := by
            rw [← zpow_add₀ (show (2:ℚ) ≠ 0 by norm_num)]; norm_num
      _ ≤ (k : ℚ) * 2 ^ (e - 52) := by
            have : (2:ℚ) ^ (52:ℤ) ≤ (k:ℚ) := by
              rw [show ((2:ℚ) ^ (52:ℤ)) = 2 ^ (52:ℕ) from zpow_natCast 2 52]
              exact hkq
            exact mul_le_mul_of_nonneg_right this hp.le
      _ ≤ x := h1
    · calc x < ((k : ℚ) + 1/2) * 2 ^ (e - 52) := h2
      _ ≤ 2 ^ (53:ℤ) * 2 ^ (e - 52) := by
            have : (k : ℚ) + 1/2 ≤ 2 ^ (53:ℤ) := by
              rw [show ((2:ℚ) ^ (53:ℤ)) = 2 ^ (53:ℕ) from zpow_natCast 2 53]
              linarith [hkq3]
            exact mul_le_mul_of_nonneg_right this hp.le
      _ = 2 ^ (e + 1) := by
            rw [← zpow_add₀ (show (2:ℚ) ≠ 0 by norm_num)]; ring_nf
  have hsc1 : (k : ℚ) ≤ x * 2 ^ ((52:ℤ) - e) := by
    have := mul_le_mul_of_nonneg_right h1 hp2.le
    rwa [zpow_cancel] at this
  have hsc2 : x * 2 ^ ((52:ℤ) - e) < (k : ℚ) + 1/2 := by
    have := mul_lt_mul_of_pos_right h2 hp2
    rwa [zpow_cancel] at this
  have hfl : ⌊x * 2 ^ ((52:ℤ) - e)⌋ = k :=
    Int.floor_eq_iff.mpr ⟨hsc1, by linarith⟩
  have hfr : x * 2 ^ ((52:ℤ) - e) - (k : ℚ) < 1/2 := by linarith
  simp only [roundF64, if_neg (not_le.mpr hx), hqe, hfl]
  rw [if_pos hfr]

/-- If `x` lies in the upper half-ulp interval `(d - ulp/2, d]` of the
representable value `d = k * 2^(e-52)` (with `k` strictly inside the
normal significand range), rounding sends `x` up to `d`. -/
theorem roundF64_eq_up (x : ℚ) (e k : ℤ) (hk1 : 2 ^ 52 < k) (hk2 : k < 2 ^ 53)
    (h1 : ((k : ℚ) - 1/2) * 2 ^ (e - 52) < x) (h2 : x ≤ (k : ℚ) * 2 ^ (e - 52)) :
    roundF64 x = (k : ℚ) * 2 ^ (e - 52) := by
  have hp : (0:ℚ) < 2 ^ (e - 52) := by positivity
  have hp2 : (0:ℚ) < 2 ^ ((52:ℤ) - e) := by positivity
  have hkq : (2:ℚ) ^ (52:ℕ) < (k : ℚ) := by exact_mod_cast hk1
  have hkq2 : (k : ℚ) < 2 ^ (53:ℕ) := by exact_mod_cast hk2
  have hkq3 : (2:ℚ) ^ (52:ℕ) + 1 ≤ (k : ℚ) := by
    have : 2 ^ 52 + 1 ≤ k := by omega
    have h' : ((2 ^ 52 + 1 : ℤ) : ℚ) ≤ (k : ℚ) := by exact_mod_cast this
    calc (2:ℚ) ^ (52:ℕ) + 1 = ((2 ^ 52 + 1 : ℤ) : ℚ) := by push_cast; ring
      _ ≤ (k:ℚ) := h'
  have hx : 0 < x := by
    refine lt_of_le_of_lt ?_ h1
    have : (0:ℚ) ≤ (k : ℚ) - 1/2 := by
      have : (0:ℚ) < 2 ^ (52:ℕ) := by positivity
      linarith
    positivity
  have hqe : qexp x = e := by
    refine qexp_eq_of x e ?_ ?_
    · calc (2:ℚ) ^ e = 2 ^ (52:ℤ) * 2 ^ (e - 52) := by
            rw [← zpow_add₀ (show (2:ℚ) ≠ 0 by norm_num)]; norm_num
      _ ≤ ((k : ℚ) - 1/2) * 2 ^ (e - 52) := by
            have : (2:ℚ) ^ (52:ℤ) ≤ (k:ℚ) - 1/2 := by
              rw [show ((2:ℚ) ^ (52:ℤ)) = 2 ^ (52:ℕ) from zpow_natCast 2 52]
              linarith [hkq3]
            exact mul_le_mul_of_nonneg_right this hp.le
      _ ≤ x := h1.le
    · calc x ≤ (k : ℚ) * 2 ^ (e - 52) := h2
      _ < 2 ^ (53:ℤ) * 2 ^ (e - 52) := by
            have : (k : ℚ) < 2 ^ (53:ℤ) := by
              rw [show ((2:ℚ) ^ (53:ℤ)) = 2 ^ (53:ℕ) from zpow_natCast 2 53]
              exact hkq2
            exact mul_lt_mul_of_pos_right this hp
      _ = 2 ^ (e + 1) := by
            rw [← zpow_add₀ (show (2:ℚ) ≠ 0 by norm_num)]; ring_nf
  have hsc1 : (k : ℚ) - 1/2 < x * 2 ^ ((52:ℤ) - e) := by
    have := mul_lt_mul_of_pos_right h1 hp2
    rwa [zpow_cancel] at this
  have hsc2 : x * 2 ^ ((52:ℤ) - e) ≤ (k : ℚ) := by
    have := mul_le_mul_of_nonneg_right h2 hp2.le
    rwa [zpow_cancel] at this
  rcases eq_or_lt_of_le hsc2 with heq | hlt
  · have hfl : ⌊x * 2 ^ ((52:ℤ) - e)⌋ = k := by
      rw [heq]
      exact Int.floor_intCast k
    have hfr : x * 2 ^ ((52:ℤ) - e) - (k : ℚ) < 1/2 := by
      rw [heq]; norm_num
    simp only [roundF64, if_neg (not_le.mpr hx), hqe, hfl]
    rw [if_pos hfr]
  · have hfl : ⌊x * 2 ^ ((52:ℤ) - e)⌋ = k - 1 := by
      refine Int.floor_eq_iff.mpr ⟨?_, ?_⟩
      · push_cast; linarith
      · push_cast; linarith
    have hfr1 : ¬ (x * 2 ^ ((52:ℤ) - e) - ((k : ℚ) - 1) < 1/2) := by
      intro hcon
      linarith
    have hfr2 : (1:ℚ)/2 < x * 2 ^ ((52:ℤ) - e) - ((k : ℚ) - 1) := by
      linarith
    simp only [roundF64, if_neg (not_le.mpr hx), hqe, hfl]
    rw [if_neg (by push_cast at hfr1 ⊢; exact hfr1), if_pos (by push_cast; exact hfr2)]
    push_cast
    ring

/-- Naturals below `2 ^ 53` are exactly representable. -/
theorem roundF64_nat (n : ℕ) (h : n < 2 ^ 53) : roundF64 (n : ℚ) = (n : ℚ) := by
  rcases Nat.eq_zero_or_pos n with h0 | h0
  · subst h0
    simp [roundF64]
  · have hL := lg_correct n h0
    have hL52 : lg n ≤ 52 := by
      by_contra hc
      push_neg at hc
      have : 2 ^ 53 ≤ 2 ^ lg n := Nat.pow_le_pow_right (by norm_num) hc
      omega
    have hkey : ((n * 2 ^ (52 - lg n) : ℕ) : ℚ) * 2 ^ ((lg n : ℤ) - 52) = (n : ℚ) := by
      push_cast
      rw [mul_assoc, ← zpow_natCast (2:ℚ) (52 - lg n),
        ← zpow_add₀ (show (2:ℚ) ≠ 0 by norm_num)]
      rw [show ((52 - lg n : ℕ) : ℤ) + ((lg n : ℤ) - 52) = 0 by
        rw [Nat.cast_sub hL52]; ring]
      norm_num
    have hrnd := roundF64_eq_down ((n : ℚ)) (lg n) ((n * 2 ^ (52 - lg n) : ℕ) : ℤ)
      ?_ ?_ ?_ ?_
    · rw [hrnd]
      rw [show (((n * 2 ^ (52 - lg n) : ℕ) : ℤ) : ℚ) = ((n * 2 ^ (52 - lg n) : ℕ) : ℚ) by
        push_cast; ring]
      exact hkey
    · have h1 : 2 ^ lg n * 2 ^ (52 - lg n) ≤ n * 2 ^ (52 - lg n) :=
        Nat.mul_le_mul_right _ hL.1
      have h2 : 2 ^ lg n * 2 ^ (52 - lg n) = 2 ^ 52 := by
        rw [← pow_add]
        congr 1
        omega
      exact_mod_cast h2 ▸ h1
    · have h1 : n * 2 ^ (52 - lg n) < 2 ^ (lg n + 1) * 2 ^ (52 - lg n) :=
        (Nat.mul_lt_mul_right (Nat.pow_pos (show 0 < 2 by norm_num))).mpr hL.2
      have h2 : 2 ^ (lg n + 1) * 2 ^ (52 - lg n) = 2 ^ 53 := by
        rw [← pow_add]
        congr 1
        omega
      exact_mod_cast h2 ▸ h1
    · rw [show (((n * 2 ^ (52 - lg n) : ℕ) : ℤ) : ℚ) = ((n * 2 ^ (52 - lg n) : ℕ) : ℚ) by
        push_cast; ring, hkey]
    · rw [show (((n * 2 ^ (52 - lg n) : ℕ) : ℤ) : ℚ) = ((n * 2 ^ (52 - lg n) : ℕ) : ℚ) by
        push_cast; ring]
      have hpos : (0:ℚ) < 1/2 * 2 ^ ((lg n : ℤ) - 52) := by positivity
      calc (n : ℚ) = ((n * 2 ^ (52 - lg n) : ℕ) : ℚ) * 2 ^ ((lg n : ℤ) - 52) := hkey.symm
        _ < (((n * 2 ^ (52 - lg n) : ℕ) : ℚ) + 1/2) * 2 ^ ((lg n : ℤ) - 52) := by
            rw [add_mul]
            linarith

/-- Round-to-nearest moves a positive value by at most half an ulp:
`2 ^ (qexp x - 53)`. -/
theorem roundF64_err (x : ℚ) (hx : 0 < x) :
    |roundF64 x - x| ≤ 2 ^ (qexp x - 53) := by
  have hp : (0:ℚ) < 2 ^ (qexp x - 52) := by positivity
  simp only [roundF64, if_neg (not_le.mpr hx)]
  set s := x * 2 ^ ((52:ℤ) - qexp x) with hs
  have hxe : s * 2 ^ (qexp x - 52) = x := by
    rw [hs, mul_assoc, ← zpow_add₀ (show (2:ℚ) ≠ 0 by norm_num)]
    norm_num
  have hgen : ∀ c : ℤ, |(c:ℚ) - s| ≤ 1/2 →
      |(c:ℚ) * 2 ^ (qexp x - 52) - x| ≤ 2 ^ (qexp x - 53) := by
    intro c hc
    have step1 : (c:ℚ) * 2 ^ (qexp x - 52) - x = ((c:ℚ) - s) * 2 ^ (qexp x - 52) := by
      rw [sub_mul, hxe]
    rw [step1, abs_mul, abs_of_pos hp]
    calc |(c:ℚ) - s| * 2 ^ (qexp x - 52) ≤ (1/2) * 2 ^ (qexp x - 52) :=
          mul_le_mul_of_nonneg_right hc hp.le
      _ = 2 ^ (qexp x - 53) := by
          rw [show (1:ℚ)/2 = 2 ^ ((-1):ℤ) by norm_num,
            ← zpow_add₀ (show (2:ℚ) ≠ 0 by norm_num)]
          ring_nf
  have hfl : (⌊s⌋ : ℚ) ≤ s := Int.floor_le _
  have hfu : s < ⌊s⌋ + 1 := Int.lt_floor_add_one _
  split_ifs with hc1 hc2 hc3
  · refine hgen ⌊s⌋ ?_
    rw [abs_sub_comm, abs_of_nonneg (by linarith)]
    linarith
  · refine hgen (⌊s⌋ + 1) ?_
    have hcast : ((⌊s⌋ + 1 : ℤ) : ℚ) = (⌊s⌋ : ℚ) + 1 := by push_cast; ring
    rw [hcast, abs_of_nonneg (by linarith)]
    linarith
  · refine hgen ⌊s⌋ ?_
    rw [abs_sub_comm, abs_of_nonneg (by linarith)]
    linarith
  · refine hgen (⌊s⌋ + 1) ?_
    have hcast : ((⌊s⌋ + 1 : ℤ) : ℚ) = (⌊s⌋ : ℚ) + 1 := by push_cast; ring
    rw [hcast, abs_of_nonneg (by linarith)]
    linarith

/-- A positive value within the lower half-ulp window above a natural
`m < 2 ^ 53` rounds down to exactly `m`. -/
theorem roundF64_nat_window (m : ℕ) (x : ℚ) (h0 : 0 < m) (h : m < 2 ^ 53)
    (hx1 : (m:ℚ) ≤ x) (hx2 : x < (m:ℚ) + 2 ^ ((lg m : ℤ) - 53)) :
    roundF64 x = (m : ℚ) := by
  have hL := lg_correct m h0
  have hL52 : lg m ≤ 52 := by
    by_contra hc
    push_neg at hc
    have : 2 ^ 53 ≤ 2 ^ lg m := Nat.pow_le_pow_right (by norm_num) hc
    omega
  have hkey : ((m * 2 ^ (52 - lg m) : ℕ) : ℚ) * 2 ^ ((lg m : ℤ) - 52) = (m : ℚ) := by
    push_cast
    rw [mul_assoc, ← zpow_natCast (2:ℚ) (52 - lg m),
      ← zpow_add₀ (show (2:ℚ) ≠ 0 by norm_num)]
    rw [show ((52 - lg m : ℕ) : ℤ) + ((lg m : ℤ) - 52) = 0 by
      rw [Nat.cast_sub hL52]; ring]
    norm_num
  have hcast : (((m * 2 ^ (52 - lg m) : ℕ) : ℤ) : ℚ) =
      ((m * 2 ^ (52 - lg m) : ℕ) : ℚ) := by push_cast; ring
  have hrnd := roundF64_eq_down x (lg m) ((m * 2 ^ (52 - lg m) : ℕ) : ℤ)
    ?_ ?_ ?_ ?_
  · rw [hrnd, hcast, hkey]
  · have h1 : 2 ^ lg m * 2 ^ (52 - lg m) ≤ m * 2 ^ (52 - lg m) :=
      Nat.mul_le_mul_right _ hL.1
    have h2 : 2 ^ lg m * 2 ^ (52 - lg m) = 2 ^ 52 := by
      rw [← pow_add]
      congr 1
      omega
    exact_mod_cast h2 ▸ h1
  · have h1 : m * 2 ^ (52 - lg m) < 2 ^ (lg m + 1) * 2 ^ (52 - lg m) :=
      (Nat.mul_lt_mul_right (Nat.pow_pos (show 0 < 2 by norm_num))).mpr hL.2
    have h2 : 2 ^ (lg m + 1) * 2 ^ (52 - lg m) = 2 ^ 53 := by
      rw [← pow_add]
      congr 1
      omega
    exact_mod_cast h2 ▸ h1
  · rw [hcast, hkey]
    exact hx1
  · rw [hcast]
    have hhalf : (1:ℚ)/2 * 2 ^ ((lg m : ℤ) - 52) = 2 ^ ((lg m : ℤ) - 53) := by
      rw [show (1:ℚ)/2 = 2 ^ ((-1):ℤ) by norm_num,
        ← zpow_add₀ (show (2:ℚ) ≠ 0 by norm_num)]
      ring_nf
    calc x < (m:ℚ) + 2 ^ ((lg m : ℤ) - 53) := hx2
      _ = (((m * 2 ^ (52 - lg m) : ℕ) : ℚ) + 1/2) * 2 ^ ((lg m : ℤ) - 52) := by
          rw [add_mul, hkey, hhalf]

/-- The Rust literal `0.01` as a binary64 value. -/
theorem c01_val : roundF64 (1/100 : ℚ) = 5764607523034235 * 2 ^ ((-59):ℤ) := by
  have h := roundF64_eq_up (1/100 : ℚ) (-7) 5764607523034235
    (by norm_num) (by norm_num) (by norm_num) (by norm_num)
  rw [h]
  norm_num

/-- `2.5 / 100.0` in binary64. -/
theorem c25_val : divF64 (5/2) 100 = 7205759403792794 * 2 ^ ((-58):ℤ) := by
  unfold divF64
  rw [show ((5:ℚ)/2) / 100 = 1/40 by norm_num]
  have h := roundF64_eq_up (1/40 : ℚ) (-6) 7205759403792794
    (by norm_num) (by norm_num) (by norm_num) (by norm_num)
  rw [h]
  norm_num

/-- `5.0 / 100.0` in binary64. -/
theorem c5_val : divF64 5 100 = 7205759403792794 * 2 ^ ((-57):ℤ) := by
  unfold divF64
  rw [show (5:ℚ) / 100 = 1/20 by norm_num]
  have h := roundF64_eq_up (1/20 : ℚ) (-5) 7205759403792794
    (by norm_num) (by norm_num) (by norm_num) (by norm_num)
  rw [h]
  norm_num

/-- `0.0 / 100.0` in binary64. -/
theorem c0_val : divF64 0 100 = 0 := by
  unfold divF64
  norm_num [roundF64]

/-- Core fee lemma: for `1 ≤ n ≤ 2^51` and a binary64 constant `c` with
`1 ≤ D*c ≤ 1 + 2^(-54)`, the ceiling of the rounded product `n * c`
equals the exact ceiling of `n / D`. -/
theorem ceil_round_mul (n D : ℕ) (c : ℚ)
    (hn1 : 1 ≤ n) (hn2 : n ≤ 2 ^ 51)
    (hD1 : 0 < D)
    (hc1 : 1 ≤ (D:ℚ) * c) (hc2 : (D:ℚ) * c ≤ 1 + 2 ^ ((-54):ℤ)) :
    ⌈roundF64 ((n:ℚ) * c)⌉ = ⌈(n:ℚ) / (D:ℚ)⌉ := by
  have hDq : (0:ℚ) < D := by exact_mod_cast hD1
  have hnq : (0:ℚ) < n := by
    have : (0:ℕ) < n := hn1
    exact_mod_cast this
  have hc0 : 0 < c := by nlinarith
  set m : ℕ := n / D with hm
  set r : ℕ := n % D with hr
  have hnDr : D * m + r = n := Nat.div_add_mod n D
  have hrD : r < D := Nat.mod_lt n hD1
  have hx0 : 0 < (n:ℚ) * c := by positivity
  rcases Nat.eq_zero_or_pos r with hr0 | hr1
  · -- n is an exact multiple of D
    have hmn : n = D * m := by omega
    have hm0 : m ≠ 0 := by
      intro h0
      rw [h0, Nat.mul_zero] at hmn
      omega
    have hm1 : 0 < m := Nat.pos_of_ne_zero hm0
    have hmle : m ≤ n := Nat.div_le_self n D
    have hm53 : m < 2 ^ 53 := by omega
    have hcast : (n:ℚ) = (D:ℚ) * (m:ℚ) := by exact_mod_cast hmn
    have htarget : ⌈(n:ℚ) / (D:ℚ)⌉ = (m:ℤ) := by
      rw [hcast, mul_comm, mul_div_assoc, div_self (ne_of_gt hDq), mul_one,
        Int.ceil_natCast]
    have hlow : (m:ℚ) ≤ (n:ℚ) * c := by
      have h1 : (m:ℚ) * 1 ≤ (m:ℚ) * ((D:ℚ)*c) :=
        mul_le_mul_of_nonneg_left hc1 (by positivity)
      calc (m:ℚ) = (m:ℚ) * 1 := by ring
        _ ≤ (m:ℚ) * ((D:ℚ)*c) := h1
        _ = (n:ℚ) * c := by rw [hcast]; ring
    have hmlt : (m:ℚ) < 2 ^ (lg m + 1 : ℕ) :=
      by exact_mod_cast (lg_correct m hm1).2
    have hhigh : (n:ℚ) * c < (m:ℚ) + 2 ^ ((lg m : ℤ) - 53) := by
      have h1 : (n:ℚ) * c ≤ (m:ℚ) * (1 + 2^((-54):ℤ)) := by
        calc (n:ℚ) * c = (m:ℚ) * ((D:ℚ)*c) := by rw [hcast]; ring
          _ ≤ (m:ℚ) * (1 + 2^((-54):ℤ)) :=
              mul_le_mul_of_nonneg_left hc2 (by positivity)
      have h2 : (m:ℚ) * 2^((-54):ℤ) < 2 ^ ((lg m:ℤ) + 1) * 2^((-54):ℤ) := by
        refine mul_lt_mul_of_pos_right ?_ (by positivity)
        calc (m:ℚ) < 2 ^ (lg m + 1 : ℕ) := hmlt
          _ = 2 ^ ((lg m : ℤ) + 1) := by
              rw [show ((lg m :ℤ) + 1) = ((lg m + 1 : ℕ) : ℤ) by push_cast; ring,
                zpow_natCast]
      have h3 : (2:ℚ) ^ ((lg m:ℤ) + 1) * 2^((-54):ℤ) = 2 ^ ((lg m:ℤ) - 53) := by
        rw [← zpow_add₀ (show (2:ℚ) ≠ 0 by norm_num)]
        ring_nf
      calc (n:ℚ)*c ≤ (m:ℚ)*(1 + 2^((-54):ℤ)) := h1
        _ = (m:ℚ) + (m:ℚ)*2^((-54):ℤ) := by ring
        _ < (m:ℚ) + 2 ^ ((lg m:ℤ)+1) * 2^((-54):ℤ) := by linarith
        _ = (m:ℚ) + 2 ^ ((lg m:ℤ) - 53) := by rw [h3]
    rw [roundF64_nat_window m ((n:ℚ)*c) hm1 hm53 hlow hhigh, htarget,
      Int.ceil_natCast]
  · -- n is not a multiple of D
    set x := (n:ℚ) * c with hx
    set v := roundF64 x with hv
    have hcast : (D:ℚ) * (m:ℚ) + (r:ℚ) = (n:ℚ) := by exact_mod_cast hnDr
    have hr1q : (1:ℚ) ≤ r := by exact_mod_cast hr1
    have hrDq : (r:ℚ) + 1 ≤ D := by exact_mod_cast hrD
    have hn51 : (n:ℚ) ≤ 2 ^ 51 := by exact_mod_cast hn2
    have herr : |v - x| ≤ x * 2 ^ ((-53):ℤ) := by
      have h1 := roundF64_err x hx0
      have h3 : (2:ℚ) ^ (qexp x) ≤ x := (qexp_correct x hx0).1
      have h2 : (2:ℚ) ^ (qexp x - 53) ≤ x * 2 ^ ((-53):ℤ) := by
        calc (2:ℚ) ^ (qexp x - 53) = 2 ^ (qexp x) * 2 ^ ((-53):ℤ) := by
              rw [← zpow_add₀ (show (2:ℚ) ≠ 0 by norm_num)]
              ring_nf
          _ ≤ x * 2 ^ ((-53):ℤ) := mul_le_mul_of_nonneg_right h3 (by positivity)
      exact le_trans h1 h2
    obtain ⟨herr1, herr2⟩ := abs_le.mp herr
    have hxD1 : (n:ℚ) ≤ x * D := by
      have h1 : (n:ℚ) * 1 ≤ (n:ℚ) * ((D:ℚ)*c) :=
        mul_le_mul_of_nonneg_left hc1 (by positivity)
      calc (n:ℚ) = (n:ℚ) * 1 := by ring
        _ ≤ (n:ℚ) * ((D:ℚ)*c) := h1
        _ = x * D := by rw [hx]; ring
    have hxD2 : x * D ≤ (n:ℚ) + (n:ℚ) * 2^((-54):ℤ) := by
      have h1 : (n:ℚ) * ((D:ℚ)*c) ≤ (n:ℚ) * (1 + 2^((-54):ℤ)) :=
        mul_le_mul_of_nonneg_left hc2 (by positivity)
      calc x * D = (n:ℚ) * ((D:ℚ)*c) := by rw [hx]; ring
        _ ≤ (n:ℚ) * (1 + 2^((-54):ℤ)) := h1
        _ = (n:ℚ) + (n:ℚ)*2^((-54):ℤ) := by ring
    have e53 : ((2:ℚ)) ^ ((-53):ℤ) = 1 / 9007199254740992 := by norm_num
    have e54 : ((2:ℚ)) ^ ((-54):ℤ) = 1 / 18014398509481984 := by norm_num
    have hG1 : (m:ℚ) < v := by
      have hvD : ((x - x * 2^((-53):ℤ)) * D) ≤ v * D :=
        mul_le_mul_of_nonneg_right (by linarith) hDq.le
      have k1 : (n:ℚ) * (1 - 2^((-53):ℤ)) ≤ (x * D) * (1 - 2^((-53):ℤ)) :=
        mul_le_mul_of_nonneg_right hxD1 (by rw [e53]; norm_num)
      have hsm : (n:ℚ) * 2^((-53):ℤ) < 1 := by
        rw [e53]
        linarith
      have k2 : (m:ℚ) * D < (n:ℚ) * (1 - 2^((-53):ℤ)) := by
        have hmd : (m:ℚ) * D = (n:ℚ) - r := by linarith [hcast]
        rw [hmd]
        have : (n:ℚ) * (1 - 2^((-53):ℤ)) = (n:ℚ) - (n:ℚ) * 2^((-53):ℤ) := by ring
        rw [this]
        linarith
      have k3 : (m:ℚ) * D < v * D := by
        have heq : (x * D) * (1 - 2^((-53):ℤ)) = (x - x * 2^((-53):ℤ)) * D := by
          ring
        linarith [hvD, k1, k2]
      exact lt_of_mul_lt_mul_right k3 hDq.le
    have hG2 : v ≤ (m:ℚ) + 1 := by
      have hvD : v * D ≤ (x + x * 2^((-53):ℤ)) * D :=
        mul_le_mul_of_nonneg_right (by linarith) hDq.le
      have k1 : (x + x * 2^((-53):ℤ)) * D = (x*D) * (1 + 2^((-53):ℤ)) := by ring
      have k2 : (x*D) * (1 + 2^((-53):ℤ)) ≤
          ((n:ℚ) + (n:ℚ) * 2^((-54):ℤ)) * (1 + 2^((-53):ℤ)) :=
        mul_le_mul_of_nonneg_right hxD2 (by rw [e53]; norm_num)
      have k3 : ((n:ℚ) + (n:ℚ) * 2^((-54):ℤ)) * (1 + 2^((-53):ℤ)) ≤ (n:ℚ) + 1 := by
        rw [e53, e54]
        nlinarith [hn51, hnq]
      have k4 : (n:ℚ) + 1 ≤ ((m:ℚ) + 1) * D := by
        have hmd : (m:ℚ) * D = (n:ℚ) - r := by linarith [hcast]
        have hexp : ((m:ℚ) + 1) * D = (m:ℚ) * D + D := by ring
        rw [hexp, hmd]
        linarith
      have k5 : v * D ≤ ((m:ℚ)+1) * D := by linarith
      exact le_of_mul_le_mul_right k5 hDq
    have hceil_v : ⌈v⌉ = (m:ℤ) + 1 := by
      rw [Int.ceil_eq_iff]
      constructor
      · push_cast
        linarith
      · push_cast
        exact hG2
    have hceil_t : ⌈(n:ℚ)/(D:ℚ)⌉ = (m:ℤ) + 1 := by
      rw [Int.ceil_eq_iff]
      have hmd : (m:ℚ) * D = (n:ℚ) - r := by linarith [hcast]
      constructor
      · push_cast
        rw [lt_div_iff₀ hDq]
        have : ((m:ℚ) + 1 - 1) * D = (m:ℚ) * D := by ring
        rw [this, hmd]
        linarith
      · push_cast
        rw [div_le_iff₀ hDq]
        have : ((m:ℚ) + 1) * D = (m:ℚ) * D + D := by ring
        rw [this, hmd]
        linarith
    rw [hceil_v, hceil_t]

/-- Evaluate the `.ceil() as u64` tail of a fee computation. -/
theorem fee_component_eq (n : ℕ) (w : ℚ) (z : ℤ) (hceil : ⌈w⌉ = z)
    (hz0 : 0 ≤ z) (hzb : z ≤ (n:ℤ)) (hn : n ≤ 2 ^ 51) :
    f64toU64 (ceilF64 w) = z.toNat ∧ ((f64toU64 (ceilF64 w)) : ℤ) = z := by
  unfold ceilF64 f64toU64
  rw [hceil, Int.floor_intCast]
  have hb : z.toNat ≤ u64Mod - 1 := by
    unfold u64Mod
    omega
  rw [min_eq_left hb]
  exact ⟨rfl, Int.toNat_of_nonneg hz0⟩

theorem roundF64_zero : roundF64 0 = 0 := by simp [roundF64]

/-- `⌈n / D⌉` is between `0` and `n` for `1 ≤ D`. -/
theorem ceil_div_bounds (n D : ℕ) (hD : 1 ≤ D) :
    0 ≤ ⌈(n:ℚ) / (D:ℚ)⌉ ∧ ⌈(n:ℚ) / (D:ℚ)⌉ ≤ (n:ℤ) := by
  have hDq : (0:ℚ) < D := by exact_mod_cast hD
  constructor
  · exact Int.ceil_nonneg (by positivity)
  · calc ⌈(n:ℚ) / (D:ℚ)⌉ ≤ ⌈(n:ℚ)⌉ :=
        Int.ceil_le_ceil (div_le_self (by positivity) (by exact_mod_cast hD))
      _ = (n:ℤ) := Int.ceil_natCast n

/-- C4 (amended): for every seller amount at most `2^51` base units (far
above the total money supply of the chain) and every tip tier in
`{0, 2.5, 5}`, the fee calculation returns `seller_receives` unchanged,
`marketplace_fee` equal to the exact ceiling of 1% of the amount,
`tip_amount` equal to the exact ceiling of `tip_percent`% of the amount,
and `total_price` equal to their sum.  (For astronomically large `u64`
amounts the `f64` rounding in the source makes the fee exceed the exact
ceiling — see the counterexample at `2^63`.) -/
theorem fee_calculation_exact (n : Nat) (tp : ℚ)
    (hn : n ≤ 2 ^ 51)
    (htp : tp = 0 ∨ tp = 5/2 ∨ tp = 5) :
    (ListingFees.calculate n tp).seller_receives = n ∧
    (((ListingFees.calculate n tp).marketplace_fee) : ℤ) = ⌈(n:ℚ) / 100⌉ ∧
    (((ListingFees.calculate n tp).tip_amount) : ℤ) = ⌈(n:ℚ) * tp / 100⌉ ∧
    (ListingFees.calculate n tp).total_price =
      (ListingFees.calculate n tp).seller_receives +
      (ListingFees.calculate n tp).marketplace_fee +
      (ListingFees.calculate n tp).tip_amount := by
  have hfee_def : (ListingFees.calculate n tp).marketplace_fee =
      f64toU64 (ceilF64 (mulF64 (castF64 n) (roundF64 (1 / 100)))) := rfl
  have htip_def : (ListingFees.calculate n tp).tip_amount =
      f64toU64 (ceilF64 (mulF64 (castF64 n) (divF64 tp 100))) := rfl
  have htot_def : (ListingFees.calculate n tp).total_price =
      wadd (wadd n ((ListingFees.calculate n tp).marketplace_fee))
        ((ListingFees.calculate n tp).tip_amount) := rfl
  rcases Nat.eq_zero_or_pos n with h0 | h0
  · subst h0
    have hc0 : castF64 0 = 0 := by
      unfold castF64
      rw [Nat.cast_zero, roundF64_zero]
    have hfee : (ListingFees.calculate 0 tp).marketplace_fee = 0 := by
      rw [hfee_def, hc0]
      unfold mulF64
      rw [zero_mul, roundF64_zero]
      simp [ceilF64, f64toU64]
    have htip : (ListingFees.calculate 0 tp).tip_amount = 0 := by
      rw [htip_def, hc0]
      unfold mulF64
      rw [zero_mul, roundF64_zero]
      simp [ceilF64, f64toU64]
    refine ⟨rfl, ?_, ?_, ?_⟩
    · rw [hfee]
      norm_num
    · rw [htip]
      norm_num
    · have hsr : (ListingFees.calculate 0 tp).seller_receives = 0 := rfl
      rw [htot_def, hfee, htip, hsr]
      simp [wadd, u64Mod]
  · have hn53 : n < 2 ^ 53 := by omega
    have hcastn : castF64 n = (n:ℚ) := roundF64_nat n hn53
    -- the marketplace fee
    have hfee_ceil : ⌈roundF64 ((n:ℚ) * (5764607523034235 * 2 ^ ((-59):ℤ)))⌉ =
        ⌈(n:ℚ) / (100:ℕ)⌉ :=
      ceil_round_mul n 100 (5764607523034235 * 2 ^ ((-59):ℤ)) h0 hn
        (by norm_num) (by push_cast; norm_num) (by push_cast; norm_num)
    have hb100 := ceil_div_bounds n 100 (by norm_num)
    have hfee := fee_component_eq n
      (roundF64 ((n:ℚ) * (5764607523034235 * 2 ^ ((-59):ℤ))))
      (⌈(n:ℚ) / (100:ℕ)⌉) hfee_ceil hb100.1 hb100.2 hn
    have hfee_eq : (((ListingFees.calculate n tp).marketplace_fee) : ℤ) =
        ⌈(n:ℚ) / 100⌉ := by
      rw [hfee_def, hcastn, c01_val]
      unfold mulF64
      rw [hfee.2]
      norm_num
    -- the tip
    have htip_eq : (((ListingFees.calculate n tp).tip_amount) : ℤ) =
        ⌈(n:ℚ) * tp / 100⌉ := by
      rcases htp with h | h | h
      · subst h
        rw [htip_def, hcastn, c0_val]
        unfold mulF64
        rw [mul_zero, roundF64_zero]
        simp [ceilF64, f64toU64]
      · subst h
        have hceil : ⌈roundF64 ((n:ℚ) * (7205759403792794 * 2 ^ ((-58):ℤ)))⌉ =
            ⌈(n:ℚ) / (40:ℕ)⌉ :=
          ceil_round_mul n 40 (7205759403792794 * 2 ^ ((-58):ℤ)) h0 hn
            (by norm_num) (by push_cast; norm_num) (by push_cast; norm_num)
        have hb := ceil_div_bounds n 40 (by norm_num)
        have hcomp := fee_component_eq n
          (roundF64 ((n:ℚ) * (7205759403792794 * 2 ^ ((-58):ℤ))))
          (⌈(n:ℚ) / (40:ℕ)⌉) hceil hb.1 hb.2 hn
        rw [htip_def, hcastn, c25_val]
        unfold mulF64
        rw [hcomp.2]
        rw [show (n:ℚ) * (5/2) / 100 = (n:ℚ) / 40 by ring]
        norm_num
      · subst h
        have hceil : ⌈roundF64 ((n:ℚ) * (7205759403792794 * 2 ^ ((-57):ℤ)))⌉ =
            ⌈(n:ℚ) / (20:ℕ)⌉ :=
          ceil_round_mul n 20 (7205759403792794 * 2 ^ ((-57):ℤ)) h0 hn
            (by norm_num) (by push_cast; norm_num) (by push_cast; norm_num)
        have hb := ceil_div_bounds n 20 (by norm_num)
        have hcomp := fee_component_eq n
          (roundF64 ((n:ℚ) * (7205759403792794 * 2 ^ ((-57):ℤ))))
          (⌈(n:ℚ) / (20:ℕ)⌉) hceil hb.1 hb.2 hn
        rw [htip_def, hcastn, c5_val]
        unfold mulF64
        rw [hcomp.2]
        rw [show (n:ℚ) * 5 / 100 = (n:ℚ) / 20 by ring]
        norm_num
    -- the total
    have hb100' : ⌈(n:ℚ) / 100⌉ ≤ (n:ℤ) := by
      have h := hb100.2
      norm_num at h
      exact h
    have hfee_le : (ListingFees.calculate n tp).marketplace_fee ≤ n := by
      have h1 : (((ListingFees.calculate n tp).marketplace_fee):ℤ) ≤ (n:ℤ) := by
        rw [hfee_eq]
        exact hb100'
      exact_mod_cast h1
    have htip_le_q : (n:ℚ) * tp / 100 ≤ (n:ℚ) := by
      rcases htp with h | h | h <;> subst h
      · rw [mul_zero, zero_div]
        positivity
      · rw [show (n:ℚ) * (5/2)/100 = (n:ℚ)/40 by ring]
        exact div_le_self (by positivity) (by norm_num)
      · rw [show (n:ℚ) * 5/100 = (n:ℚ)/20 by ring]
        exact div_le_self (by positivity) (by norm_num)
    have htip_le : (ListingFees.calculate n tp).tip_amount ≤ n := by
      have h1 : (((ListingFees.calculate n tp).tip_amount):ℤ) ≤ (n:ℤ) := by
        rw [htip_eq]
        calc ⌈(n:ℚ)*tp/100⌉ ≤ ⌈(n:ℚ)⌉ := Int.ceil_le_ceil htip_le_q
          _ = n := Int.ceil_natCast n
      exact_mod_cast h1
    refine ⟨rfl, hfee_eq, htip_eq, ?_⟩
    rw [htot_def]
    have hw1 : wadd n ((ListingFees.calculate n tp).marketplace_fee) =
        n + (ListingFees.calculate n tp).marketplace_fee := by
      refine wadd_eq ?_
      unfold u64Mod
      omega
    rw [hw1]
    refine wadd_eq ?_
    unfold u64Mod
    omega

/-- C4 (counterexample): at `seller_wants = 2^63` (tip 0) the computed
marketplace fee is `92233720368547760`, while the exact ceiling of 1% is
`92233720368547759` — the `f64` constant `0.01` lies slightly above
`1/100` and at this magnitude the excess is no longer absorbed by the
rounding, so the claim's "ceiling of exactly 1%" fails. -/
theorem fee_ceiling_cex :
    ((ListingFees.calculate (2 ^ 63) 0).marketplace_fee : ℤ) ≠
      ⌈((2 ^ 63 : ℕ) : ℚ) / 100⌉ ∧
    (ListingFees.calculate (2 ^ 63) 0).marketplace_fee = 92233720368547760 ∧
    ⌈((2 ^ 63 : ℕ) : ℚ) / 100⌉ = (92233720368547759 : ℤ) := by
  have hfee_def : (ListingFees.calculate (2 ^ 63) 0).marketplace_fee =
      f64toU64 (ceilF64 (mulF64 (castF64 (2 ^ 63)) (roundF64 (1 / 100)))) := rfl
  have hcast : castF64 (2 ^ 63) = (2:ℚ) ^ (63:ℕ) := by
    unfold castF64
    rw [show (((2 ^ 63 : ℕ)) : ℚ) = (2:ℚ) ^ (63:ℕ) by push_cast; ring]
    have h := roundF64_eq_down ((2:ℚ) ^ (63:ℕ)) 63 (2 ^ 52)
      (by norm_num) (by norm_num) (by norm_num) (by norm_num)
    rw [h]
    norm_num
  have hprod : mulF64 ((2:ℚ) ^ (63:ℕ)) (5764607523034235 * 2 ^ ((-59):ℤ)) =
      (92233720368547760 : ℚ) := by
    unfold mulF64
    rw [show ((2:ℚ) ^ (63:ℕ)) * (5764607523034235 * 2 ^ ((-59):ℤ)) =
        (92233720368547760 : ℚ) by norm_num]
    have h := roundF64_eq_down (92233720368547760 : ℚ) 56 5764607523034235
      (by norm_num) (by norm_num) (by norm_num) (by norm_num)
    rw [h]
    norm_num
  have hceilq : ceilF64 ((92233720368547760 : ℚ)) = ((92233720368547760:ℤ) : ℚ) := by
    unfold ceilF64
    rw [show (92233720368547760 : ℚ) = ((92233720368547760 : ℤ) : ℚ) by norm_num,
      Int.ceil_intCast]
  have hfee : (ListingFees.calculate (2 ^ 63) 0).marketplace_fee =
      92233720368547760 := by
    rw [hfee_def, hcast, c01_val, hprod, hceilq]
    unfold f64toU64
    rw [Int.floor_intCast]
    norm_num [u64Mod]
    rfl
  have hceil : ⌈((2 ^ 63 : ℕ) : ℚ) / 100⌉ = (92233720368547759 : ℤ) := by
    rw [Int.ceil_eq_iff]
    constructor
    · rw [lt_div_iff₀ (by norm_num : (0:ℚ) < 100)]
      push_cast
      norm_num
    · rw [div_le_iff₀ (by norm_num : (0:ℚ) < 100)]
      push_cast
      norm_num
  refine ⟨?_, hfee, hceil⟩
  rw [hfee, hceil]
  norm_num

/-- Witness for `fee_calculation_exact` at the spec's own example
(`seller_wants = 1000`, tip 2.5%). -/
theorem fee_calculation_exact_witness :
    (1000 : ℕ) ≤ 2 ^ 51 ∧
    ((5/2 : ℚ) = 0 ∨ (5/2 : ℚ) = 5/2 ∨ (5/2 : ℚ) = 5) ∧
    (ListingFees.calculate 1000 (5/2)).seller_receives = 1000 :=
  ⟨by decide, Or.inr (Or.inl rfl),
   (fee_calculation_exact 1000 (5/2) (by decide) (Or.inr (Or.inl rfl))).1⟩

end Marketplace
